import Mathlib

/-!
# Verification of the bugbuddy ingestion pipeline

Shallow embedding of the GitHub ingestion pipeline of the bugbuddy
repository (the GitHub API service with its filter / retry / batch logic,
and the file-tree builder of `src/utils/fileTree.ts`), together with
theorems settling the specification claims about it.

JavaScript strings are modelled through their character lists (`String.data`);
all string predicates are written as executable list functions so that every
definition evaluates inside the kernel.
-/

/-! ## String primitives

Executable models of the JavaScript string operations used by the service:
`startsWith`/`endsWith`-style anchored regex tests, substring containment
(unanchored regex tests), `toLowerCase`, `lastIndexOf`, `split('/')` and
`join('/')`. -/

/-- `listStarts pat l` : `pat` is a leading segment of `l`
(model of an `^`-anchored literal regex test). -/
def listStarts : List Char → List Char → Bool
  | [], _ => true
  | _ :: _, [] => false
  | a :: as, b :: bs => a == b && listStarts as bs

/-- `listHasSub pat l` : `pat` occurs contiguously somewhere in `l`
(model of an unanchored literal regex test such as `/node_modules/`). -/
def listHasSub (pat : List Char) : List Char → Bool
  | [] => listStarts pat []
  | b :: bs => listStarts pat (b :: bs) || listHasSub pat bs

/-- Anchored-at-start match on strings. -/
def strStarts (pat s : String) : Bool := listStarts pat.data s.data

/-- Anchored-at-end match on strings (`/...$/`). -/
def strEnds (pat s : String) : Bool := listStarts pat.data.reverse s.data.reverse

/-- Unanchored containment on strings. -/
def strHasSub (pat s : String) : Bool := listHasSub pat.data s.data

/-- Index of the last occurrence of `c`, model of JavaScript
`String.prototype.lastIndexOf` restricted to a single character. -/
def lastIdxOf (c : Char) : List Char → Option Nat
  | [] => none
  | a :: as =>
    match lastIdxOf c as with
    | some i => some (i + 1)
    | none => if a == c then some 0 else none

/-- JavaScript `s.split('/')`, on the character list of `s`.  The JS
behaviour `"".split('/') == [""]` and `"a/".split('/') == ["a",""]`
is reproduced. -/
def splitSlashAux : List Char → List Char → List (List Char)
  | acc, [] => [acc.reverse]
  | acc, c :: cs =>
    if c == '/' then acc.reverse :: splitSlashAux [] cs
    else splitSlashAux (c :: acc) cs

/-- `path.split('/')` as used by the tree builder. -/
def splitSlash (s : String) : List String := (splitSlashAux [] s.data).map String.mk

/-- `parts.join('/')` (JavaScript `Array.prototype.join`). -/
def joinSlash (parts : List String) : String := String.intercalate "/" parts

/-! ## Filter & budget planner (src: GitHub service, module top)

Constants and the filter pipeline of the GitHub API service.  The regular
expressions of `IGNORED_PATTERNS` are literal patterns; each is modelled by
the anchored / unanchored containment test it denotes. -/

/-- `MAX_FILES = 1000`. -/
def MAX_FILES : Nat := 1000

/-- `MAX_TOTAL_SIZE_MB = 100`. -/
def MAX_TOTAL_SIZE_MB : Nat := 100

/-- `MAX_TOTAL_SIZE_BYTES = MAX_TOTAL_SIZE_MB * 1024 * 1024`. -/
def MAX_TOTAL_SIZE_BYTES : Nat := MAX_TOTAL_SIZE_MB * 1024 * 1024

/-- `MAX_FILE_SIZE_BYTES = 1024 * 1024` (1MB per file). -/
def MAX_FILE_SIZE_BYTES : Nat := 1024 * 1024

/-- The `SUPPORTED_EXTENSIONS` set, kept as the source's literal list. -/
def SUPPORTED_EXTENSIONS : List String :=
  [".java", ".xml", ".gradle", ".properties", ".sql", ".jsp",
   ".yaml", ".yml", ".json", ".ts", ".tsx", ".js", ".css", ".html", ".md",
   ".py", ".cpp", ".c", ".h", ".php", ".rb", ".go", ".rs", ".kt", ".scala"]

/-- `IGNORED_PATTERNS.some(p => p.test(path))`.  Each regex of the source
array, in order: `/node_modules/`, `/\.env.*/`, `/\.env\.production/`,
`/\.env\.development/`, `/\.(log|tmp|cache)$/`, `/^node_modules\//`,
`/^\.git\//`, `/^\.vscode\//`, `/^target\//`, `/^build\//`, `/^dist\//`,
`/^\.next\//`, `/^\.nuxt\//`, rendered as the containment / anchor test the
pattern denotes (`.*` after `\.env` matches the empty string, so that
pattern is containment of `".env"`). -/
def shouldIgnoreFile (path : String) : Bool :=
  strHasSub "node_modules" path
  || strHasSub ".env" path
  || strHasSub ".env.production" path
  || strHasSub ".env.development" path
  || (strEnds ".log" path || strEnds ".tmp" path || strEnds ".cache" path)
  || strStarts "node_modules/" path
  || strStarts ".git/" path
  || strStarts ".vscode/" path
  || strStarts "target/" path
  || strStarts "build/" path
  || strStarts "dist/" path
  || strStarts ".next/" path
  || strStarts ".nuxt/" path

/-- `filename.toLowerCase().substring(filename.lastIndexOf('.'))`.
When the filename has no dot, `lastIndexOf` is `-1` and JavaScript
`substring` clamps it to `0`, yielding the whole (lowercased) filename.
`toLowerCase` is modelled by the ASCII `Char.toLower` (the extensions
involved are ASCII). -/
def jsExtension (filename : String) : String :=
  let cs := filename.data
  let start := (lastIdxOf '.' cs).getD 0
  String.mk ((cs.drop start).map Char.toLower)

/-- `isSupportedFile`: extension membership in `SUPPORTED_EXTENSIONS`. -/
def isSupportedFile (filename : String) : Bool :=
  SUPPORTED_EXTENSIONS.contains (jsExtension filename)

/-- `GitHubTreeItem.type` field: `'blob' | 'tree'`. -/
inductive TreeItemType where
  | blob : TreeItemType
  | tree : TreeItemType
deriving DecidableEq, Repr

/-- A `GitHubTreeItem` of the recursive tree listing (`mode` and `sha`
play no role in the modelled logic and are omitted from the record,
`url` is kept as the opaque content reference). -/
structure GitHubTreeItem where
  path : String
  itemType : TreeItemType
  size : Option Nat
  url : String
deriving DecidableEq, Repr

/-- The per-item size test `(item.size || 0) < MAX_FILE_SIZE_BYTES`
(JavaScript `||` sends both `undefined` and `0` to `0`). -/
def sizeBelowCap (it : GitHubTreeItem) : Bool :=
  it.size.getD 0 < MAX_FILE_SIZE_BYTES

/-- `allBlobs`: the raw listing restricted to `type === 'blob'`. -/
def allBlobs (tree : List GitHubTreeItem) : List GitHubTreeItem :=
  tree.filter (fun it => it.itemType == .blob)

/-- `relevantItems`: the three chained `.filter` calls of the source, in
their order (ignore patterns, supported extension, per-file size cap). -/
def relevantItems (tree : List GitHubTreeItem) : List GitHubTreeItem :=
  (((allBlobs tree).filter (fun it => !shouldIgnoreFile it.path)).filter
      (fun it => isSupportedFile it.path)).filter sizeBelowCap

/-- `limitedItems = relevantItems.slice(0, MAX_FILES)`. -/
def limitedItems (tree : List GitHubTreeItem) : List GitHubTreeItem :=
  (relevantItems tree).take MAX_FILES

/-! ## Language detection -/

/-- The `languageMap` literal of `detectLanguage`. -/
def languageMap : List (String × String) :=
  [(".js", "javascript"), (".jsx", "javascript"), (".ts", "typescript"),
   (".tsx", "typescript"), (".py", "python"), (".java", "java"),
   (".cpp", "cpp"), (".c", "c"), (".h", "c"), (".php", "php"),
   (".rb", "ruby"), (".go", "go"), (".rs", "rust"), (".kt", "kotlin"),
   (".scala", "scala"), (".xml", "xml"), (".json", "json"),
   (".yaml", "yaml"), (".yml", "yaml"), (".md", "markdown"),
   (".html", "html"), (".css", "css"), (".sql", "sql"),
   (".gradle", "gradle"), (".properties", "properties"), (".jsp", "jsp")]

/-- `detectLanguage`: the same extension computation as `isSupportedFile`,
then a map lookup (`languageMap[ext]`, `undefined` = `none`). -/
def detectLanguage (filename : String) : Option String :=
  languageMap.lookup (jsExtension filename)

/-! ## Batched content retriever and result aggregation
(src: `fetchGithubRepo` and `GitHubService.analyzeGitHubRepo`)

The network is abstracted by outcome functions: for `fetchGithubRepo`,
`outcomes item attempt` is the decoded text content returned by
`githubService.getFileContent` at the given retry attempt (`none` = the
attempt threw); for `analyzeGitHubRepo`, the outcome of the single blob
fetch is abstracted to the byte length of the decoded content, which is
all the budget logic inspects. -/

/-- A `ProjectFile` as produced by the retriever. -/
structure ProjectFile where
  path : String
  content : String
  language : Option String
  size : Nat
deriving DecidableEq, Repr

/-- The exported `RepoImportResult` record (its literal fields: the
returned object also sets `truncated`). -/
structure RepoImportResult where
  files : List ProjectFile
  summary : String
  truncated : Bool
deriving DecidableEq, Repr

deriving instance DecidableEq for Except

/-- The exponential backoff delay before the retry following failed
attempt number `attempt` (0-based): `Math.pow(2, attempt) * 1000`. -/
def backoffDelayMs (attempt : Nat) : Nat := 2 ^ attempt * 1000

/-- The retry loop of `fetchFileWithRetry`: attempts `attempt`,
`attempt+1`, ... until one succeeds, at most `fuel` of them; `none` once
every attempt has failed. -/
def retryFirstSuccess (outcome : Nat → Option String) : Nat → Nat → Option String
  | _, 0 => none
  | attempt, fuel + 1 =>
    match outcome attempt with
    | some content => some content
    | none => retryFirstSuccess outcome (attempt + 1) fuel

/-- `fetchFileWithRetry(item, retries = 3)`: on success builds the
`ProjectFile` with `detectLanguage` and `size = content.length`; after
`retries` failed attempts returns `null`. -/
def fetchFileWithRetry (item : GitHubTreeItem) (outcome : Nat → Option String)
    (retries : Nat := 3) : Option ProjectFile :=
  (retryFirstSuccess outcome 0 retries).map (fun content =>
    { path := item.path, content := content,
      language := detectLanguage item.path, size := content.length })

/-- `BATCH_SIZE = 3` of `fetchGithubRepo`. -/
def BATCH_SIZE : Nat := 3

/-- The sequential batch loop of `fetchGithubRepo`: slices of
`BATCH_SIZE` items, each item fetched through `fetchFileWithRetry`; after
each batch the successes are pushed onto `files` in batch order and the
`null`s increment `failedCount`.  Returns `(files, failedCount)`. -/
def batchLoopAux (outcomes : GitHubTreeItem → Nat → Option String) :
    Nat → List GitHubTreeItem → List ProjectFile × Nat
  | 0, _ => ([], 0)
  | _ + 1, [] => ([], 0)
  | fuel + 1, it0 :: restItems =>
    let items := it0 :: restItems
    let batch := items.take BATCH_SIZE
    let results := batch.map (fun it => fetchFileWithRetry it (outcomes it))
    let rest := batchLoopAux outcomes fuel (items.drop BATCH_SIZE)
    (results.filterMap id ++ rest.1, results.countP (fun r => r.isNone) + rest.2)

/-- The loop runs while `i < limitedItems.length` advancing by
`BATCH_SIZE`, so the item count bounds the number of iterations; the
recursion is indexed by that bound. -/
def batchLoop (outcomes : GitHubTreeItem → Nat → Option String)
    (items : List GitHubTreeItem) : List ProjectFile × Nat :=
  batchLoopAux outcomes items.length items

/-- The final summary template literal of `fetchGithubRepo`. -/
def mkSummary (filesLen failedCount : Nat) (targetRef : String)
    (isTruncated : Bool) : String :=
  if failedCount > 0 then
    "Imported " ++ toString filesLen ++ " files from " ++ targetRef
      ++ " (" ++ toString failedCount ++ " failed). "
      ++ (if isTruncated then "(Some files skipped due to size/limits)" else "")
  else
    "Imported " ++ toString filesLen ++ " files from " ++ targetRef ++ ". "
      ++ (if isTruncated then "(Some files skipped due to size/limits)" else "")

/-- The terminal error taxonomy of the run (each constructor corresponds to
one family of thrown `Error` messages of the source). -/
inductive IngestError where
  /-- "GitHub API rate limit exceeded ..." (403 with `x-ratelimit-remaining: 0`). -/
  | rateLimited : IngestError
  /-- "Branch or tag '<ref>' not found." (404 on the tree endpoint). -/
  | referenceNotFound (ref : String) : IngestError
  /-- "Repository is empty or uninitialized." (409) and
      "Repository appears to be empty or has no commits." (zero tree entries). -/
  | repositoryEmpty : IngestError
  /-- "Access denied. ..." (403 without rate-limit signals). -/
  | accessDenied : IngestError
  /-- "No matching source files found in '<ref>'. ..." -/
  | noMatchingFiles (ref : String) : IngestError
  /-- "Failed to fetch file tree: <status> ..." -/
  | generic (status : Nat) : IngestError
deriving DecidableEq, Repr

/-- The response of the recursive tree endpoint, as far as the run
inspects it: either an HTTP error status (with the rate-limit-remaining
header signal), or a JSON body with its `truncated` flag and its `tree`
array (`none` models an absent `tree` field, `treeData.tree` falsy). -/
inductive TreeFetchResp where
  | ok (truncated : Bool) (tree : Option (List GitHubTreeItem)) : TreeFetchResp
  | httpError (status : Nat) (rateRemainingZero : Bool) : TreeFetchResp

/-- The `!treeRes.ok` branch ladder of `fetchGithubRepo` (404, 409, 403
with/without rate-limit headers, generic). -/
def classifyTreeError (targetRef : String) (status : Nat)
    (rateRemainingZero : Bool) : IngestError :=
  if status = 404 then .referenceNotFound targetRef
  else if status = 409 then .repositoryEmpty
  else if status = 403 then
    (if rateRemainingZero then .rateLimited else .accessDenied)
  else .generic status

/-- `fetchGithubRepo`, from the tree fetch on (repository parsing and
branch resolution have already produced `targetRef`): error
classification, the empty-tree check, the filter pipeline, the
`NoMatchingFiles` check, the batched retrieval, and the final
`RepoImportResult` with `truncated = isTruncated || failedCount > 0`. -/
def fetchGithubRepo (targetRef : String) (resp : TreeFetchResp)
    (outcomes : GitHubTreeItem → Nat → Option String) :
    Except IngestError RepoImportResult :=
  match resp with
  | .httpError status rlz => .error (classifyTreeError targetRef status rlz)
  | .ok treeTruncated tree? =>
    match tree? with
    | none => .error .repositoryEmpty
    | some tree =>
      if tree.isEmpty then .error .repositoryEmpty
      else
        let limited := limitedItems tree
        let isTruncated :=
          treeTruncated || decide (limited.length < (relevantItems tree).length)
        if limited.isEmpty then .error (.noMatchingFiles targetRef)
        else
          let out := batchLoop outcomes limited
          .ok { files := out.1,
                summary := mkSummary out.1.length out.2 targetRef isTruncated,
                truncated := isTruncated || decide (out.2 > 0) }

/-- The failure counter of a run on listing `tree` (the local
`failedCount` of the source). -/
def runFailedCount (outcomes : GitHubTreeItem → Nat → Option String)
    (tree : List GitHubTreeItem) : Nat :=
  (batchLoop outcomes (limitedItems tree)).2

/-! ## The byte-budget loop of `analyzeGitHubRepo`

`analyzeGitHubRepo` is the only code path with a cumulative byte budget.
Its batch loop (`BATCH_SIZE = 5`) checks `totalSize >= MAX_TOTAL_SIZE_BYTES`
before each batch, and inside the batch each item checks
`totalSize >= MAX_TOTAL_SIZE_BYTES` and
`totalSize + content.length > MAX_TOTAL_SIZE_BYTES` against the value
`totalSize` had when `Promise.all` started — no concurrent fetch mutates
it; the committed `totalSize` and `files` are only updated serially in the
`forEach` after the batch resolves.  The fetched content is abstracted to
its length (`content.length`), which is all this logic inspects. -/

/-- `ANALYZE_BATCH_SIZE = 5` (the `BATCH_SIZE` local to `analyzeGitHubRepo`). -/
def ANALYZE_BATCH_SIZE : Nat := 5

/-- The body of one concurrent item of a batch of `analyzeGitHubRepo`:
`preBatchTotal` is the committed total read by the closure; the result is
`none` when the fetch failed, the budget was already exhausted, or the
item would push the committed total over the budget. -/
def analyzeBatchItem (preBatchTotal : Nat) (outcome : Option Nat) : Option Nat :=
  if preBatchTotal ≥ MAX_TOTAL_SIZE_BYTES then none
  else
    match outcome with
    | none => none
    | some len =>
      if preBatchTotal + len > MAX_TOTAL_SIZE_BYTES then none else some len

/-- The batch loop of `analyzeGitHubRepo`: stops when the committed total
reaches the budget, else commits the batch's non-`null` results (path and
byte length) serially and continues.  Returns the committed file list
(path, size) and the final committed `totalSize`. -/
def analyzeLoopAux (outcomes : GitHubTreeItem → Option Nat) :
    Nat → List GitHubTreeItem → Nat → List (String × Nat) × Nat
  | 0, _, totalSize => ([], totalSize)
  | _ + 1, [], totalSize => ([], totalSize)
  | fuel + 1, it0 :: restItems, totalSize =>
    if totalSize ≥ MAX_TOTAL_SIZE_BYTES then ([], totalSize)
    else
      let items := it0 :: restItems
      let batch := items.take ANALYZE_BATCH_SIZE
      let committed := batch.filterMap (fun it =>
        (analyzeBatchItem totalSize (outcomes it)).map (fun len => (it.path, len)))
      let rest := analyzeLoopAux outcomes fuel (items.drop ANALYZE_BATCH_SIZE)
        (totalSize + (committed.map (fun pf => pf.2)).sum)
      (committed ++ rest.1, rest.2)

/-- The loop advances by `ANALYZE_BATCH_SIZE` while items remain, so the
item count bounds the number of iterations; the recursion is indexed by
that bound. -/
def analyzeLoop (outcomes : GitHubTreeItem → Option Nat)
    (items : List GitHubTreeItem) (totalSize : Nat) : List (String × Nat) × Nat :=
  analyzeLoopAux outcomes items.length items totalSize

/-! ## File tree builder (src: `src/utils/fileTree.ts`)

`buildFileTree` walks each `file.path.split('/')` through a forest of
mutable nodes: at each path segment it looks for an existing sibling of
that name (`currentLevel.find`), creates a file node (last segment) or a
directory node with empty children (inner segment) when none exists, and
descends into the node's children only when the node found or created is a
directory — when an inner segment hits an existing *file* node the walk
stays at the same level and continues with the next segment, exactly as in
the source loop.  Finally `sortNodes` sorts every level: directories
before files, then by name (`localeCompare` is modelled as code-point
lexicographic comparison), recursing into children. -/

/-- A `CodebaseFile` (the fields the tree builder reads). -/
structure CodebaseFile where
  path : String
  content : String
  size : Nat
  language : Option String
deriving DecidableEq, Repr

/-- A `FileTreeNode`.  The source uses one record with a `type` tag and
optional `children`/`size`/`language`/`isSupported` fields; the two
shapes it actually builds are the two constructors. -/
inductive FTNode where
  | file (name : String) (path : String) (size : Nat)
      (language : Option String) (isSupported : Bool) : FTNode
  | dir (name : String) (path : String) (children : List FTNode) : FTNode
deriving Repr

/-- The `name` field. -/
def FTNode.name : FTNode → String
  | .file n _ _ _ _ => n
  | .dir n _ _ => n

/-- `node.type === 'directory'`. -/
def FTNode.isDir : FTNode → Bool
  | .file .. => false
  | .dir .. => true

/-- The directory path `parts.slice(0, i + 1).join('/')` for a directory
created at segment `part` after the already-consumed leading `consumed`
segments. -/
def dirPathOf (consumed : List String) (part : String) : String :=
  joinSlash (consumed ++ [part])

/-- Replace the first node named `part` of a level by `newNode`: the
functional rendering of the source's in-place mutation of the node that
`currentLevel.find` returned. -/
def setFirstNamed (part : String) (newNode : FTNode) : List FTNode → List FTNode
  | [] => []
  | n :: ns =>
    if n.name == part then newNode :: ns
    else n :: setFirstNamed part newNode ns

/-- The per-file insertion walk of `buildFileTree`: `consumed` is the
list of path segments already walked, the second list the remaining
segments, the third the current sibling level.  Mirrors the source loop:
* last segment: if a sibling of that name exists, nothing happens (the
  node is neither created nor replaced); otherwise a file node carrying
  `file.path`, `file.size`, `file.language`, `isSupported: true` is
  appended;
* inner segment, no sibling of that name: a directory node with path
  `parts.slice(0, i+1).join('/')` is appended and the walk continues
  inside its (empty) children;
* inner segment, first sibling of that name is a directory: the walk
  continues inside that directory's children (functionally: that node is
  replaced by the directory with the walk applied to its children);
* inner segment, first sibling of that name is a file: the walk does not
  descend (`existingNode.type !== 'directory'`) and the next segment is
  processed at the same level. -/
def insertWalk (f : CodebaseFile) : List String → List String → List FTNode → List FTNode
  | _, [], level => level
  | _, [part], level =>
    if level.any (fun n => n.name == part) then level
    else level ++ [FTNode.file part f.path f.size f.language true]
  | consumed, part :: rest, level =>
    match level.find? (fun n => n.name == part) with
    | none =>
      level ++ [FTNode.dir part (dirPathOf consumed part)
        (insertWalk f (consumed ++ [part]) rest [])]
    | some (FTNode.dir nm p cs) =>
      setFirstNamed part
        (FTNode.dir nm p (insertWalk f (consumed ++ [part]) rest cs)) level
    | some (FTNode.file _ _ _ _ _) => insertWalk f (consumed ++ [part]) rest level

/-- The node comparator of `sortNodes`: directories sort before files;
within the same kind, by name.  `a.name.localeCompare(b.name)` is modelled
as code-point lexicographic comparison of the names. -/
def nameLeData : List Char → List Char → Bool
  | [], _ => true
  | _ :: _, [] => false
  | a :: as, b :: bs => if a = b then nameLeData as bs else decide (a.toNat < b.toNat)

/-- `nodeLE a b`: the comparator as a total boolean order
(`a` sorts no later than `b`). -/
def nodeLE (a b : FTNode) : Bool :=
  if a.isDir != b.isDir then a.isDir else nameLeData a.name.data b.name.data

/-- `nodeLE` as a relation, for the sort. -/
def nodeR (a b : FTNode) : Prop := nodeLE a b = true

instance : DecidableRel nodeR := fun _ _ => inferInstanceAs (Decidable (_ = true))

/-- `[...nodes].sort(cmp)` — ECMAScript `Array.prototype.sort` is a
stable sort by the comparator; it is modelled by the (stable, structurally
recursive) insertion sort over `nodeR`. -/
def jsSort (nodes : List FTNode) : List FTNode := List.insertionSort nodeR nodes

mutual

/-- `sortNodes` applied to one node: a directory's children are sorted
with the comparator and recursively.  (The source sorts a level and then
maps into children; since the comparator only reads `type` and `name`,
which the recursion preserves, sorting the level of transformed nodes is
the same list, and `sortLevel` below composes the two.) -/
def sortNode : FTNode → FTNode
  | .file n p s l i => .file n p s l i
  | .dir n p cs => .dir n p (jsSort (sortForest cs))

/-- `sortNode` mapped over a sibling list. -/
def sortForest : List FTNode → List FTNode
  | [] => []
  | n :: ns => sortNode n :: sortForest ns

end

/-- `sortNodes` on a level: stable sort by the comparator, recursing into
children. -/
def sortLevel (nodes : List FTNode) : List FTNode :=
  jsSort (sortForest nodes)

/-- `buildFileTree`: insert every file in list order starting from the
empty root forest, then sort recursively. -/
def buildFileTree (files : List CodebaseFile) : List FTNode :=
  sortLevel (files.foldl (fun root f => insertWalk f [] (splitSlash f.path) root) [])

/-! ## Supporting lemmas -/

theorem listStarts_append_self (p ys : List Char) : listStarts p (p ++ ys) = true := by
  induction p with
  | nil => rfl
  | cons a as ih => simp [listStarts, ih]

theorem listHasSub_of_starts {p l : List Char} (h : listStarts p l = true) :
    listHasSub p l = true := by
  cases l with
  | nil => simpa [listHasSub] using h
  | cons b bs => simp [listHasSub, h]

theorem listHasSub_append {p t : List Char} (xs : List Char)
    (h : listHasSub p t = true) : listHasSub p (xs ++ t) = true := by
  induction xs with
  | nil => simpa using h
  | cons b bs ih =>
    show (listStarts p (b :: (bs ++ t)) || listHasSub p (bs ++ t)) = true
    rw [ih, Bool.or_true]

theorem strHasSub_sandwich (x p y : String) : strHasSub p (x ++ (p ++ y)) = true := by
  unfold strHasSub
  rw [String.data_append, String.data_append]
  exact listHasSub_append x.data (listHasSub_of_starts (listStarts_append_self p.data y.data))

theorem strHasSub_sandwich' (x p y z : String) (h : z = x ++ (p ++ y)) :
    strHasSub p z = true := h ▸ strHasSub_sandwich x p y

theorem length_filterMap_add_countP_none {α β : Type _} (f : α → Option β)
    (l : List α) :
    (l.filterMap f).length + l.countP (fun a => (f a).isNone) = l.length := by
  induction l with
  | nil => rfl
  | cons a t ih =>
    cases h : f a <;>
      simp [List.filterMap_cons, h, List.countP_cons, ← ih] <;> omega

theorem fetchFileWithRetry_path {it : GitHubTreeItem} {o : Nat → Option String}
    {pf : ProjectFile} (h : fetchFileWithRetry it o = some pf) : pf.path = it.path := by
  unfold fetchFileWithRetry at h
  cases hr : retryFirstSuccess o 0 3 with
  | none => rw [hr] at h; simp at h
  | some c => rw [hr] at h; simp at h; rw [← h]

theorem filterMap_path_sublist (outcomes : GitHubTreeItem → Nat → Option String) :
    ∀ items : List GitHubTreeItem,
      ((items.filterMap (fun it => fetchFileWithRetry it (outcomes it))).map
          ProjectFile.path).Sublist (items.map GitHubTreeItem.path) := by
  intro items
  induction items with
  | nil => simp
  | cons it t ih =>
    cases h : fetchFileWithRetry it (outcomes it) with
    | none =>
      simp only [List.filterMap_cons, h, List.map_cons]
      exact ih.cons it.path
    | some pf =>
      simp only [List.filterMap_cons, h, List.map_cons]
      rw [fetchFileWithRetry_path h]
      exact ih.cons₂ it.path

theorem batchLoopAux_eq (outcomes : GitHubTreeItem → Nat → Option String) :
    ∀ fuel items, items.length ≤ fuel →
      batchLoopAux outcomes fuel items =
        (items.filterMap (fun it => fetchFileWithRetry it (outcomes it)),
         items.countP (fun it => (fetchFileWithRetry it (outcomes it)).isNone)) := by
  intro fuel
  induction fuel with
  | zero =>
    intro items h
    have hnil : items = [] := List.eq_nil_of_length_eq_zero (Nat.le_zero.mp h)
    subst hnil
    rfl
  | succ fuel ih =>
    intro items h
    match items with
    | [] => rfl
    | it0 :: rest =>
      have hlen : ((it0 :: rest).drop BATCH_SIZE).length ≤ fuel := by
        simp only [List.length_drop, List.length_cons, BATCH_SIZE]
        simp only [List.length_cons] at h
        omega
      show ((((it0 :: rest).take BATCH_SIZE).map
              (fun it => fetchFileWithRetry it (outcomes it))).filterMap id
            ++ (batchLoopAux outcomes fuel ((it0 :: rest).drop BATCH_SIZE)).1,
          (((it0 :: rest).take BATCH_SIZE).map
              (fun it => fetchFileWithRetry it (outcomes it))).countP (fun r => r.isNone)
            + (batchLoopAux outcomes fuel ((it0 :: rest).drop BATCH_SIZE)).2) = _
      rw [ih _ hlen, List.filterMap_map, List.countP_map]
      conv_rhs => rw [← List.take_append_drop BATCH_SIZE (it0 :: rest)]
      rw [List.filterMap_append, List.countP_append]
      rfl

theorem batchLoop_eq (outcomes : GitHubTreeItem → Nat → Option String)
    (items : List GitHubTreeItem) :
    batchLoop outcomes items =
      (items.filterMap (fun it => fetchFileWithRetry it (outcomes it)),
       items.countP (fun it => (fetchFileWithRetry it (outcomes it)).isNone)) :=
  batchLoopAux_eq outcomes items.length items le_rfl


theorem relevantItems_eq (tree : List GitHubTreeItem) :
    relevantItems tree = tree.filter (fun it =>
      it.itemType == TreeItemType.blob && !shouldIgnoreFile it.path
        && isSupportedFile it.path && sizeBelowCap it) := by
  unfold relevantItems allBlobs
  rw [List.filter_filter, List.filter_filter, List.filter_filter]
  exact List.filter_congr (fun it _ => by
    cases h1 : (it.itemType == TreeItemType.blob) <;>
      cases h2 : shouldIgnoreFile it.path <;>
      cases h3 : isSupportedFile it.path <;>
      cases h4 : sizeBelowCap it <;>
      simp [h1, h2, h3, h4])

theorem limitedItems_sublist (tree : List GitHubTreeItem) :
    (limitedItems tree).Sublist tree := by
  unfold limitedItems
  refine ((relevantItems tree).take_sublist MAX_FILES).trans ?_
  rw [relevantItems_eq]
  exact tree.filter_sublist

/-- The shape of every successful run: the `.ok` branch of
`fetchGithubRepo` with its three computed fields. -/
theorem fetchGithubRepo_ok_eq (targetRef : String) (treeTruncated : Bool)
    (tree : List GitHubTreeItem) (outcomes : GitHubTreeItem → Nat → Option String)
    (h1 : tree ≠ []) (h2 : limitedItems tree ≠ []) :
    fetchGithubRepo targetRef (.ok treeTruncated (some tree)) outcomes =
      .ok { files := (batchLoop outcomes (limitedItems tree)).1,
            summary := mkSummary (batchLoop outcomes (limitedItems tree)).1.length
              (batchLoop outcomes (limitedItems tree)).2 targetRef
              (treeTruncated
                || decide ((limitedItems tree).length < (relevantItems tree).length)),
            truncated := (treeTruncated
                || decide ((limitedItems tree).length < (relevantItems tree).length))
              || decide ((batchLoop outcomes (limitedItems tree)).2 > 0) } := by
  have e1 : tree.isEmpty = false := by
    cases tree with
    | nil => exact absurd rfl h1
    | cons a t => rfl
  have e2 : (limitedItems tree).isEmpty = false := by
    cases hl : limitedItems tree with
    | nil => exact absurd hl h2
    | cons a t => rfl
  unfold fetchGithubRepo batchLoop
  simp only [e1, e2, Bool.false_eq_true, if_false]

/-- An empty candidate set on a nonempty listing yields `NoMatchingFiles`. -/
theorem fetchGithubRepo_noMatching (targetRef : String) (treeTruncated : Bool)
    (tree : List GitHubTreeItem) (outcomes : GitHubTreeItem → Nat → Option String)
    (h1 : tree ≠ []) (h2 : limitedItems tree = []) :
    fetchGithubRepo targetRef (.ok treeTruncated (some tree)) outcomes =
      .error (.noMatchingFiles targetRef) := by
  have e1 : tree.isEmpty = false := by
    cases tree with
    | nil => exact absurd rfl h1
    | cons a t => rfl
  unfold fetchGithubRepo
  simp only [e1, Bool.false_eq_true, if_false, h2, List.isEmpty_nil, if_true]

/-- Inversion: a successful run comes from a nonempty listing with a
nonempty candidate set, and its result fields are the computed ones. -/
theorem fetchGithubRepo_ok_inv {targetRef : String} {resp : TreeFetchResp}
    {outcomes : GitHubTreeItem → Nat → Option String} {r : RepoImportResult}
    (h : fetchGithubRepo targetRef resp outcomes = .ok r) :
    ∃ treeTruncated tree, resp = .ok treeTruncated (some tree) ∧ tree ≠ [] ∧
      limitedItems tree ≠ [] ∧
      r = { files := (batchLoop outcomes (limitedItems tree)).1,
            summary := mkSummary (batchLoop outcomes (limitedItems tree)).1.length
              (batchLoop outcomes (limitedItems tree)).2 targetRef
              (treeTruncated
                || decide ((limitedItems tree).length < (relevantItems tree).length)),
            truncated := (treeTruncated
                || decide ((limitedItems tree).length < (relevantItems tree).length))
              || decide ((batchLoop outcomes (limitedItems tree)).2 > 0) } := by
  match resp with
  | .httpError status rlz => simp [fetchGithubRepo] at h
  | .ok treeTruncated none => simp [fetchGithubRepo] at h
  | .ok treeTruncated (some tree) =>
    by_cases h1 : tree = []
    · subst h1
      simp [fetchGithubRepo] at h
    · by_cases h2 : limitedItems tree = []
      · rw [fetchGithubRepo_noMatching targetRef treeTruncated tree outcomes h1 h2] at h
        simp at h
      · rw [fetchGithubRepo_ok_eq targetRef treeTruncated tree outcomes h1 h2] at h
        exact ⟨treeTruncated, tree, rfl, h1, h2, (Except.ok.inj h).symm⟩

/-! ## Concrete runs used by witnesses and counterexamples -/

/-- A supported candidate item (a TypeScript blob of reported size 10). -/
def exItemTs : GitHubTreeItem :=
  { path := "a.ts", itemType := .blob, size := some 10, url := "u" }

/-- An unsupported item (a PNG blob). -/
def exItemPng : GitHubTreeItem :=
  { path := "b.png", itemType := .blob, size := some 10, url := "u" }

/-- Outcomes where every fetch succeeds on the first attempt. -/
def exOutcomesOk : GitHubTreeItem → Nat → Option String := fun _ _ => some "hello"

/-- Outcomes where every fetch attempt fails. -/
def exOutcomesFail : GitHubTreeItem → Nat → Option String := fun _ _ => none

/-- The retrieved file of the all-success run on `[exItemTs]`. -/
def exFileTs : ProjectFile :=
  { path := "a.ts", content := "hello", language := some "typescript", size := 5 }

/-- The result of the all-success run on `[exItemTs]`. -/
def exResultOk : RepoImportResult :=
  { files := [exFileTs], summary := "Imported 1 files from main. ",
    truncated := false }

/-- The result of the all-fail run on `[exItemTs]`. -/
def exResultFail : RepoImportResult :=
  { files := [], summary := "Imported 0 files from main (1 failed). ",
    truncated := true }

/-! ## Claims C4, C7, C8 -/

/-- C4 — the filter/budget planner is exactly the raw listing filtered by
(in this order) `type === 'blob'`, the ignore patterns, the supported
extensions and the per-file size cap, truncated to `MAX_FILES`; the
candidate list is a sublist of the raw listing of length at most
`MAX_FILES`, and every successful run returns at most `MAX_FILES` files. -/
theorem C4_filter_pipeline :
    (∀ tree, limitedItems tree =
        (tree.filter (fun it => it.itemType == TreeItemType.blob
            && !shouldIgnoreFile it.path && isSupportedFile it.path
            && sizeBelowCap it)).take MAX_FILES) ∧
    (∀ tree, (limitedItems tree).length ≤ MAX_FILES ∧
        (limitedItems tree).Sublist tree) ∧
    (∀ targetRef resp outcomes r,
        fetchGithubRepo targetRef resp outcomes = .ok r →
          r.files.length ≤ MAX_FILES) := by
  refine ⟨fun tree => ?_, fun tree => ⟨?_, limitedItems_sublist tree⟩,
    fun targetRef resp outcomes r h => ?_⟩
  · unfold limitedItems
    rw [relevantItems_eq]
  · exact List.length_take_le MAX_FILES (relevantItems tree)
  · obtain ⟨tt, tree, -, -, -, hr⟩ := fetchGithubRepo_ok_inv h
    subst hr
    simp only
    rw [batchLoop_eq]
    exact (List.length_filterMap_le _ (limitedItems tree)).trans
      (List.length_take_le MAX_FILES (relevantItems tree))

/-- C4 witness: a concrete successful run obeys the `MAX_FILES` bound. -/
theorem C4_filter_pipeline_witness :
    fetchGithubRepo "main" (.ok false (some [exItemTs])) exOutcomesOk = .ok exResultOk ∧
    exResultOk.files.length ≤ MAX_FILES :=
  ⟨by decide,
   C4_filter_pipeline.2.2 "main" (.ok false (some [exItemTs])) exOutcomesOk exResultOk
     (by decide)⟩

/-- C7 — HTTP 409 from the tree endpoint, an absent `tree` field, and a
zero-entry listing each fail with the terminal `RepositoryEmpty` error; an
empty repository never yields an (empty) success. -/
theorem C7_repository_empty :
    ∀ targetRef outcomes rlz treeTruncated,
      fetchGithubRepo targetRef (.httpError 409 rlz) outcomes =
          .error .repositoryEmpty ∧
      fetchGithubRepo targetRef (.ok treeTruncated none) outcomes =
          .error .repositoryEmpty ∧
      fetchGithubRepo targetRef (.ok treeTruncated (some [])) outcomes =
          .error .repositoryEmpty := by
  intro targetRef outcomes rlz treeTruncated
  exact ⟨rfl, rfl, rfl⟩

/-- C8 — batching is invisible in the result: the files of the batch loop
are exactly the in-order `filterMap` of the candidate list, so the final
result preserves the candidate order (its path sequence is a sublist of
the candidates' path sequence, never re-ordered); at run level, the
returned files are that `filterMap` of `limitedItems`. -/
theorem C8_result_order :
    (∀ outcomes items,
       (batchLoop outcomes items).1 =
          items.filterMap (fun it => fetchFileWithRetry it (outcomes it)) ∧
       ((batchLoop outcomes items).1.map ProjectFile.path).Sublist
          (items.map GitHubTreeItem.path)) ∧
    (∀ targetRef treeTruncated tree outcomes r,
       fetchGithubRepo targetRef (.ok treeTruncated (some tree)) outcomes = .ok r →
         r.files = (limitedItems tree).filterMap
            (fun it => fetchFileWithRetry it (outcomes it)) ∧
         (r.files.map ProjectFile.path).Sublist
            ((limitedItems tree).map GitHubTreeItem.path)) := by
  constructor
  · intro outcomes items
    rw [batchLoop_eq]
    exact ⟨rfl, filterMap_path_sublist outcomes items⟩
  · intro targetRef treeTruncated tree outcomes r h
    obtain ⟨tt, tree', heq, -, -, hr⟩ := fetchGithubRepo_ok_inv h
    cases heq
    subst hr
    simp only
    rw [batchLoop_eq]
    exact ⟨rfl, filterMap_path_sublist outcomes _⟩

/-- C8 witness: at a concrete run the returned files are the in-order
`filterMap` of the candidates. -/
theorem C8_result_order_witness :
    exResultOk.files = (limitedItems [exItemTs]).filterMap
      (fun it => fetchFileWithRetry it (exOutcomesOk it)) :=
  (C8_result_order.2 "main" false [exItemTs] exOutcomesOk exResultOk (by decide)).1

/-! ## Claim C6 -/

/-- C6 — an empty candidate set after filtering and truncation on a
nonempty listing fails with the terminal `NoMatchingFiles` error (not an
empty success), and that error is distinct from every error the tree
endpoint's HTTP classification can produce. -/
theorem C6_no_matching_files :
    ∀ targetRef treeTruncated tree outcomes, tree ≠ [] → limitedItems tree = [] →
      fetchGithubRepo targetRef (.ok treeTruncated (some tree)) outcomes =
          .error (.noMatchingFiles targetRef) ∧
      ∀ status rlz,
        IngestError.noMatchingFiles targetRef ≠ classifyTreeError targetRef status rlz := by
  intro targetRef treeTruncated tree outcomes h1 h2
  refine ⟨fetchGithubRepo_noMatching targetRef treeTruncated tree outcomes h1 h2, ?_⟩
  intro status rlz
  unfold classifyTreeError
  split
  · simp
  · split
    · simp
    · split
      · split <;> simp
      · simp

/-- C6 witness: a repository containing only a `.png` file fails with
`NoMatchingFiles`. -/
theorem C6_no_matching_files_witness :
    ([exItemPng] ≠ ([] : List GitHubTreeItem)) ∧
    limitedItems [exItemPng] = [] ∧
    fetchGithubRepo "main" (.ok false (some [exItemPng])) exOutcomesOk =
      .error (.noMatchingFiles "main") :=
  ⟨by decide, by decide,
   (C6_no_matching_files "main" false [exItemPng] exOutcomesOk (by decide) (by decide)).1⟩

/-! ## Claim C10 -/

/-- C10 — any positive per-item failure count alone forces the returned
`truncated` flag to `true` (`truncated: isTruncated || failedCount > 0`). -/
theorem C10_failures_imply_truncated :
    ∀ targetRef treeTruncated tree outcomes r,
      fetchGithubRepo targetRef (.ok treeTruncated (some tree)) outcomes = .ok r →
      0 < runFailedCount outcomes tree → r.truncated = true := by
  intro targetRef treeTruncated tree outcomes r h hk
  obtain ⟨tt, tree', heq, -, -, hr⟩ := fetchGithubRepo_ok_inv h
  cases heq
  subst hr
  simp only [runFailedCount] at hk
  simp [decide_eq_true hk]

/-- C10 witness: one candidate failing all attempts makes the concrete
run's `truncated` flag true with no other truncation cause. -/
theorem C10_failures_imply_truncated_witness :
    fetchGithubRepo "main" (.ok false (some [exItemTs])) exOutcomesFail =
        .ok exResultFail ∧
    0 < runFailedCount exOutcomesFail [exItemTs] ∧
    exResultFail.truncated = true :=
  ⟨by decide, by decide,
   C10_failures_imply_truncated "main" false [exItemTs] exOutcomesFail exResultFail
     (by decide) (by decide)⟩

/-! ## Claim C3 -/

/-- C3 — the backoff delay doubles per attempt; `fetchFileWithRetry`
fails exactly when all 3 attempts fail; on a run with `n` candidates of
which `k` fail all attempts, the run still succeeds with `n - k` files,
the failure counter equals `k`, and the summary contains the substring
`"<k> failed"`. -/
theorem C3_retry_and_failure_accounting :
    (∀ attempt, backoffDelayMs (attempt + 1) = 2 * backoffDelayMs attempt) ∧
    (∀ (item : GitHubTreeItem) (outcome : Nat → Option String),
        fetchFileWithRetry item outcome = none ↔
          outcome 0 = none ∧ outcome 1 = none ∧ outcome 2 = none) ∧
    (∀ targetRef treeTruncated tree outcomes, tree ≠ [] → limitedItems tree ≠ [] →
      ∃ r, fetchGithubRepo targetRef (.ok treeTruncated (some tree)) outcomes = .ok r ∧
        runFailedCount outcomes tree =
          (limitedItems tree).countP
            (fun it => (fetchFileWithRetry it (outcomes it)).isNone) ∧
        r.files.length = (limitedItems tree).length - runFailedCount outcomes tree ∧
        (0 < runFailedCount outcomes tree →
          strHasSub (toString (runFailedCount outcomes tree) ++ " failed")
            r.summary = true)) := by
  refine ⟨?_, ?_, ?_⟩
  · intro attempt
    unfold backoffDelayMs
    rw [pow_succ]
    ring
  · intro item outcome
    cases h0 : outcome 0 <;> cases h1 : outcome 1 <;> cases h2 : outcome 2 <;>
      simp [fetchFileWithRetry, retryFirstSuccess, h0, h1, h2]
  · intro targetRef treeTruncated tree outcomes h1 h2
    refine ⟨_, fetchGithubRepo_ok_eq targetRef treeTruncated tree outcomes h1 h2,
      ?_, ?_, ?_⟩
    · unfold runFailedCount
      rw [batchLoop_eq]
    · unfold runFailedCount
      rw [batchLoop_eq]
      simp only
      have := length_filterMap_add_countP_none
        (fun it => fetchFileWithRetry it (outcomes it)) (limitedItems tree)
      omega
    · intro hk
      unfold runFailedCount at hk ⊢
      simp only
      unfold mkSummary
      rw [if_pos hk]
      have hsplit : (" failed). " : String) = " failed" ++ "). " := rfl
      refine strHasSub_sandwich'
        ("Imported " ++ toString (batchLoop outcomes (limitedItems tree)).1.length
          ++ " files from " ++ targetRef ++ " (") _
        ("). " ++ (if (treeTruncated
            || decide ((limitedItems tree).length < (relevantItems tree).length)) = true
          then "(Some files skipped due to size/limits)" else "")) _ ?_
      simp only [String.append_assoc]
      rw [hsplit]
      simp only [String.append_assoc]

/-- C3 witness: the one-candidate all-fail run has 0 = 1 - 1 files,
failure count 1 and a summary mentioning "1 failed". -/
theorem C3_retry_and_failure_accounting_witness :
    (([exItemTs] : List GitHubTreeItem) ≠ []) ∧ limitedItems [exItemTs] ≠ [] ∧
    ∃ r, fetchGithubRepo "main" (.ok false (some [exItemTs])) exOutcomesFail = .ok r ∧
      runFailedCount exOutcomesFail [exItemTs] =
        (limitedItems [exItemTs]).countP
          (fun it => (fetchFileWithRetry it (exOutcomesFail it)).isNone) ∧
      r.files.length = (limitedItems [exItemTs]).length -
        runFailedCount exOutcomesFail [exItemTs] ∧
      (0 < runFailedCount exOutcomesFail [exItemTs] →
        strHasSub (toString (runFailedCount exOutcomesFail [exItemTs]) ++ " failed")
          r.summary = true) :=
  ⟨by decide, by decide,
   C3_retry_and_failure_accounting.2.2 "main" false [exItemTs] exOutcomesFail
     (by decide) (by decide)⟩

/-! ## Claim C2 (corrected) -/

/-- C2 counterexample — the "only if" direction fails: a run on a listing
the API did not truncate (`truncated` flag `false` in the response), whose
filtered listing does not exceed `MAX_FILES` (no entry is cut by the
truncation step), and in which every candidate was attempted (there is no
byte budget in `fetchGithubRepo` at all, so none was exhausted), still
returns `truncated = true` — solely because one candidate failed all
retry attempts. -/
theorem C2_truncated_counterexample :
    fetchGithubRepo "main" (.ok false (some [exItemTs])) exOutcomesFail =
        .ok exResultFail ∧
    exResultFail.truncated = true ∧
    (relevantItems [exItemTs]).length ≤ MAX_FILES ∧
    limitedItems [exItemTs] = relevantItems [exItemTs] ∧
    runFailedCount exOutcomesFail [exItemTs] = 1 := by
  refine ⟨by decide, by decide, by decide, by decide, by decide⟩

/-- C2 amended — the returned `truncated` flag is true exactly when the
remote listing was marked truncated, or the filtered listing exceeded
`MAX_FILES`, or at least one candidate failed all retry attempts; in
particular an API-truncated listing always yields `truncated = true`.
(`fetchGithubRepo` has no cumulative byte budget, so budget exhaustion is
not among the causes.) -/
theorem C2_truncated_amended :
    ∀ targetRef treeTruncated tree outcomes r,
      fetchGithubRepo targetRef (.ok treeTruncated (some tree)) outcomes = .ok r →
      (r.truncated = ((treeTruncated
          || decide (MAX_FILES < (relevantItems tree).length))
          || decide (0 < runFailedCount outcomes tree))) ∧
      (treeTruncated = true → r.truncated = true) := by
  intro targetRef treeTruncated tree outcomes r h
  obtain ⟨tt, tree', heq, -, -, hr⟩ := fetchGithubRepo_ok_inv h
  cases heq
  subst hr
  have hmid : decide ((limitedItems tree).length < (relevantItems tree).length) =
      decide (MAX_FILES < (relevantItems tree).length) := by
    rw [decide_eq_decide]
    unfold limitedItems
    rw [List.length_take]
    constructor <;> intro hx
    · rcases Nat.lt_or_ge MAX_FILES (relevantItems tree).length with hc | hc
      · exact hc
      · rw [Nat.min_eq_right hc] at hx
        omega
    · rw [Nat.min_eq_left (Nat.le_of_lt hx)]
      exact hx
  constructor
  · simp only [runFailedCount, hmid]
  · intro htt
    subst htt
    simp

/-- C2 amended witness: the characterization evaluated at the concrete
all-fail run. -/
theorem C2_truncated_amended_witness :
    fetchGithubRepo "main" (.ok false (some [exItemTs])) exOutcomesFail =
        .ok exResultFail ∧
    exResultFail.truncated = ((false
        || decide (MAX_FILES < (relevantItems [exItemTs]).length))
        || decide (0 < runFailedCount exOutcomesFail [exItemTs])) :=
  ⟨by decide,
   (C2_truncated_amended "main" false [exItemTs] exOutcomesFail exResultFail
     (by decide)).1⟩

/-! ## Claim C1 (corrected) -/

theorem analyzeBatchItem_le {t : Nat} {o : Option Nat} {len : Nat}
    (h : analyzeBatchItem t o = some len) : t + len ≤ MAX_TOTAL_SIZE_BYTES := by
  unfold analyzeBatchItem at h
  by_cases hb : t ≥ MAX_TOTAL_SIZE_BYTES
  · rw [if_pos hb] at h
    exact absurd h (by simp)
  · rw [if_neg hb] at h
    match o with
    | none => exact absurd h (by simp)
    | some len' =>
      simp only at h
      by_cases hc : t + len' > MAX_TOTAL_SIZE_BYTES
      · rw [if_pos hc] at h
        exact absurd h (by simp)
      · rw [if_neg hc] at h
        obtain rfl : len' = len := Option.some.inj h
        omega

theorem analyzeLoopAux_stopped (outcomes : GitHubTreeItem → Option Nat) :
    ∀ fuel items t, MAX_TOTAL_SIZE_BYTES ≤ t →
      analyzeLoopAux outcomes fuel items t = ([], t) := by
  intro fuel items t h
  match fuel, items with
  | 0, _ => rfl
  | _ + 1, [] => rfl
  | fuel + 1, it0 :: rest =>
    unfold analyzeLoopAux
    rw [if_pos h]

theorem analyzeLoopAux_total_eq (outcomes : GitHubTreeItem → Option Nat) :
    ∀ fuel items t,
      (analyzeLoopAux outcomes fuel items t).2 =
        t + ((analyzeLoopAux outcomes fuel items t).1.map (fun pf => pf.2)).sum := by
  intro fuel
  induction fuel with
  | zero => intro items t; simp [analyzeLoopAux]
  | succ fuel ih =>
    intro items t
    match items with
    | [] => simp [analyzeLoopAux]
    | it0 :: rest =>
      unfold analyzeLoopAux
      by_cases hb : t ≥ MAX_TOTAL_SIZE_BYTES
      · rw [if_pos hb]
        simp
      · rw [if_neg hb]
        simp only [List.map_append, List.sum_append]
        rw [ih]
        omega

theorem analyzeLoopAux_le (outcomes : GitHubTreeItem → Option Nat) :
    ∀ fuel items t, t < MAX_TOTAL_SIZE_BYTES →
      (analyzeLoopAux outcomes fuel items t).2 ≤
        ANALYZE_BATCH_SIZE * MAX_TOTAL_SIZE_BYTES := by
  intro fuel
  induction fuel with
  | zero =>
    intro items t ht
    show t ≤ ANALYZE_BATCH_SIZE * MAX_TOTAL_SIZE_BYTES
    unfold ANALYZE_BATCH_SIZE at *
    omega
  | succ fuel ih =>
    intro items t ht
    match items with
    | [] =>
      show t ≤ ANALYZE_BATCH_SIZE * MAX_TOTAL_SIZE_BYTES
      unfold ANALYZE_BATCH_SIZE at *
      omega
    | it0 :: rest =>
      unfold analyzeLoopAux
      rw [if_neg (by omega)]
      simp only
      set batch := (it0 :: rest).take ANALYZE_BATCH_SIZE with hbatch
      set committed := batch.filterMap (fun it =>
        (analyzeBatchItem t (outcomes it)).map (fun len => (it.path, len))) with hcommitted
      have hlen : committed.length ≤ ANALYZE_BATCH_SIZE := by
        calc committed.length ≤ batch.length := List.length_filterMap_le _ _
          _ ≤ ANALYZE_BATCH_SIZE := List.length_take_le _ _
      have heach : ∀ x ∈ committed.map (fun pf => pf.2),
          x ≤ MAX_TOTAL_SIZE_BYTES - t := by
        intro x hx
        obtain ⟨pf, hpf, rfl⟩ := List.mem_map.mp hx
        rw [hcommitted] at hpf
        obtain ⟨it, -, hit⟩ := List.mem_filterMap.mp hpf
        cases ha : analyzeBatchItem t (outcomes it) with
        | none => exact absurd hit (by rw [ha]; simp [Option.map])
        | some len =>
          rw [ha] at hit
          simp only [Option.map] at hit
          have := analyzeBatchItem_le ha
          obtain rfl : (it.path, len) = pf := Option.some.inj hit
          simp only
          omega
      have hsum : (committed.map (fun pf => pf.2)).sum ≤
          ANALYZE_BATCH_SIZE * (MAX_TOTAL_SIZE_BYTES - t) := by
        calc (committed.map (fun pf => pf.2)).sum
            ≤ (committed.map (fun pf => pf.2)).length * (MAX_TOTAL_SIZE_BYTES - t) := by
              have := List.sum_le_card_nsmul (committed.map (fun pf => pf.2))
                (MAX_TOTAL_SIZE_BYTES - t) heach
              simpa [smul_eq_mul] using this
          _ ≤ ANALYZE_BATCH_SIZE * (MAX_TOTAL_SIZE_BYTES - t) :=
              Nat.mul_le_mul_right _ (by simpa using hlen)
      set t' := t + (committed.map (fun pf => pf.2)).sum with ht'
      have htb : t' ≤ ANALYZE_BATCH_SIZE * MAX_TOTAL_SIZE_BYTES := by
        rw [ht']
        unfold ANALYZE_BATCH_SIZE at hsum ⊢
        omega
      by_cases hstop : MAX_TOTAL_SIZE_BYTES ≤ t'
      · rw [analyzeLoopAux_stopped outcomes fuel _ t' hstop]
        exact htb
      · exact ih _ t' (by omega)

/-- C1 counterexample — the committed result violates the budget: with
two candidates whose decoded contents are each exactly
`MAX_TOTAL_SIZE_BYTES` long, both in-flight checks of the first batch
compare against the pre-batch committed total `0`, both items are
committed, and the run ends with a committed total (equal to the sum of
the committed sizes) of twice the budget. -/
theorem C1_budget_counterexample :
    (analyzeLoop (fun _ => some MAX_TOTAL_SIZE_BYTES) [exItemTs, exItemPng] 0).2 =
        2 * MAX_TOTAL_SIZE_BYTES ∧
    MAX_TOTAL_SIZE_BYTES <
      (analyzeLoop (fun _ => some MAX_TOTAL_SIZE_BYTES) [exItemTs, exItemPng] 0).2 ∧
    (((analyzeLoop (fun _ => some MAX_TOTAL_SIZE_BYTES) [exItemTs, exItemPng] 0).1.map
        (fun pf => pf.2)).sum) = 2 * MAX_TOTAL_SIZE_BYTES := by
  refine ⟨by decide, by decide, by decide⟩

/-- C1 amended — the committed total equals the sum of the committed file
sizes; it never exceeds `ANALYZE_BATCH_SIZE * MAX_TOTAL_SIZE_BYTES`
(each committed item individually fit the budget measured at its batch's
start, and a batch has at most `ANALYZE_BATCH_SIZE = 5` items), but it
can exceed `MAX_TOTAL_SIZE_BYTES` itself; once the committed total
reaches the budget, retrieval stops before the next batch. -/
theorem C1_budget_amended :
    ∀ outcomes items,
      (analyzeLoop outcomes items 0).2 =
        ((analyzeLoop outcomes items 0).1.map (fun pf => pf.2)).sum ∧
      (analyzeLoop outcomes items 0).2 ≤
        ANALYZE_BATCH_SIZE * MAX_TOTAL_SIZE_BYTES ∧
      (∀ t, MAX_TOTAL_SIZE_BYTES ≤ t → analyzeLoop outcomes items t = ([], t)) := by
  intro outcomes items
  refine ⟨?_, ?_, ?_⟩
  · have := analyzeLoopAux_total_eq outcomes items.length items 0
    simpa [analyzeLoop] using this
  · exact analyzeLoopAux_le outcomes items.length items 0 (by decide)
  · intro t ht
    exact analyzeLoopAux_stopped outcomes items.length items t ht

/-- C1 amended witness: the early-stop clause evaluated at a concrete
exhausted budget. -/
theorem C1_budget_amended_witness :
    MAX_TOTAL_SIZE_BYTES ≤ MAX_TOTAL_SIZE_BYTES ∧
    analyzeLoop (fun _ => some 7) [exItemTs] MAX_TOTAL_SIZE_BYTES =
      ([], MAX_TOTAL_SIZE_BYTES) :=
  ⟨le_rfl,
   (C1_budget_amended (fun _ => some 7) [exItemTs]).2.2 MAX_TOTAL_SIZE_BYTES le_rfl⟩

/-! ## Claim C9: directories always contain a file descendant -/

mutual

/-- `n` is a file node or has a descendant file node. -/
def nodeHasFile : FTNode → Bool
  | .file .. => true
  | .dir _ _ cs => forestHasFile cs

/-- Some node of the forest is or contains a file node. -/
def forestHasFile : List FTNode → Bool
  | [] => false
  | n :: ns => nodeHasFile n || forestHasFile ns

end

mutual

/-- Every directory node in `n` (itself included) has at least one
descendant node of kind file. -/
def dirsHaveFile : FTNode → Bool
  | .file .. => true
  | .dir _ _ cs => forestHasFile cs && dirsHaveFileForest cs

/-- `dirsHaveFile` over a forest. -/
def dirsHaveFileForest : List FTNode → Bool
  | [] => true
  | n :: ns => dirsHaveFile n && dirsHaveFileForest ns

end

theorem forestHasFile_append (xs ys : List FTNode) :
    forestHasFile (xs ++ ys) = (forestHasFile xs || forestHasFile ys) := by
  induction xs with
  | nil => simp [forestHasFile]
  | cons n ns ih => simp [forestHasFile, ih, Bool.or_assoc]

theorem dirsHaveFileForest_append (xs ys : List FTNode) :
    dirsHaveFileForest (xs ++ ys) =
      (dirsHaveFileForest xs && dirsHaveFileForest ys) := by
  induction xs with
  | nil => simp [dirsHaveFileForest]
  | cons n ns ih => simp [dirsHaveFileForest, ih, Bool.and_assoc]

theorem forestHasFile_eq_any (L : List FTNode) :
    forestHasFile L = L.any nodeHasFile := by
  induction L with
  | nil => rfl
  | cons n ns ih => simp [forestHasFile, ih]

theorem dirsHaveFileForest_eq_all (L : List FTNode) :
    dirsHaveFileForest L = L.all dirsHaveFile := by
  induction L with
  | nil => rfl
  | cons n ns ih => simp [dirsHaveFileForest, ih]

theorem any_eq_of_perm {α : Type _} (f : α → Bool) {l₁ l₂ : List α}
    (h : l₁.Perm l₂) : l₁.any f = l₂.any f := by
  induction h with
  | nil => rfl
  | cons x _ ih => simp [ih]
  | swap x y l => simp [Bool.or_left_comm]
  | trans _ _ ih1 ih2 => rw [ih1, ih2]

theorem all_eq_of_perm {α : Type _} (f : α → Bool) {l₁ l₂ : List α}
    (h : l₁.Perm l₂) : l₁.all f = l₂.all f := by
  induction h with
  | nil => rfl
  | cons x _ ih => simp [ih]
  | swap x y l => simp [Bool.and_left_comm]
  | trans _ _ ih1 ih2 => rw [ih1, ih2]

mutual

theorem nodeHasFile_sortNode : ∀ n, nodeHasFile (sortNode n) = nodeHasFile n
  | .file .. => rfl
  | .dir nm p cs => by
    show forestHasFile (jsSort (sortForest cs)) = forestHasFile cs
    rw [forestHasFile_eq_any, jsSort,
      any_eq_of_perm nodeHasFile (List.perm_insertionSort nodeR (sortForest cs)),
      ← forestHasFile_eq_any, forestHasFile_sortForest cs]

theorem forestHasFile_sortForest :
    ∀ L, forestHasFile (sortForest L) = forestHasFile L
  | [] => rfl
  | n :: ns => by
    show (nodeHasFile (sortNode n) || forestHasFile (sortForest ns)) = _
    rw [nodeHasFile_sortNode n, forestHasFile_sortForest ns]
    rfl

end

mutual

theorem dirsHaveFile_sortNode : ∀ n, dirsHaveFile (sortNode n) = dirsHaveFile n
  | .file .. => rfl
  | .dir nm p cs => by
    show (forestHasFile (jsSort (sortForest cs))
        && dirsHaveFileForest (jsSort (sortForest cs)))
      = (forestHasFile cs && dirsHaveFileForest cs)
    rw [forestHasFile_eq_any, jsSort,
      any_eq_of_perm nodeHasFile (List.perm_insertionSort nodeR (sortForest cs)),
      ← forestHasFile_eq_any, forestHasFile_sortForest cs,
      dirsHaveFileForest_eq_all,
      all_eq_of_perm dirsHaveFile (List.perm_insertionSort nodeR (sortForest cs)),
      ← dirsHaveFileForest_eq_all, dirsHaveFileForest_sortForest cs]

theorem dirsHaveFileForest_sortForest :
    ∀ L, dirsHaveFileForest (sortForest L) = dirsHaveFileForest L
  | [] => rfl
  | n :: ns => by
    show (dirsHaveFile (sortNode n) && dirsHaveFileForest (sortForest ns)) = _
    rw [dirsHaveFile_sortNode n, dirsHaveFileForest_sortForest ns]
    rfl

end

theorem setFirstNamed_hasFile {part nm p : String} {cs0 newChildren : List FTNode}
    (hnew : forestHasFile cs0 = true → forestHasFile newChildren = true) :
    ∀ L, L.find? (fun n => n.name == part) = some (FTNode.dir nm p cs0) →
      forestHasFile L = true →
      forestHasFile (setFirstNamed part (FTNode.dir nm p newChildren) L) = true := by
  intro L
  induction L with
  | nil => intro hf _; simp at hf
  | cons n ns ih =>
    intro hf hforest
    by_cases hn : (n.name == part) = true
    · rw [List.find?_cons_of_pos ns hn] at hf
      obtain rfl : n = FTNode.dir nm p cs0 := Option.some.inj hf
      simp only [setFirstNamed, hn, if_true]
      simp only [forestHasFile, nodeHasFile] at hforest ⊢
      rcases (Bool.or_eq_true _ _).mp hforest with h | h
      · rw [hnew h]
        rfl
      · rw [h]
        simp
    · rw [List.find?_cons_of_neg ns hn] at hf
      simp only [setFirstNamed, hn, if_false]
      simp only [forestHasFile] at hforest ⊢
      rcases (Bool.or_eq_true _ _).mp hforest with h | h
      · rw [h]
        rfl
      · rw [ih hf h]
        simp

theorem setFirstNamed_dirsOK {part nm p : String} {cs0 newChildren : List FTNode}
    (h1 : forestHasFile cs0 = true → forestHasFile newChildren = true)
    (h2 : dirsHaveFileForest cs0 = true → dirsHaveFileForest newChildren = true) :
    ∀ L, L.find? (fun n => n.name == part) = some (FTNode.dir nm p cs0) →
      dirsHaveFileForest L = true →
      dirsHaveFileForest (setFirstNamed part (FTNode.dir nm p newChildren) L) = true := by
  intro L
  induction L with
  | nil => intro hf _; simp at hf
  | cons n ns ih =>
    intro hf hall
    by_cases hn : (n.name == part) = true
    · rw [List.find?_cons_of_pos ns hn] at hf
      obtain rfl : n = FTNode.dir nm p cs0 := Option.some.inj hf
      simp only [setFirstNamed, hn, if_true]
      simp only [dirsHaveFileForest, dirsHaveFile, Bool.and_eq_true] at hall ⊢
      exact ⟨⟨h1 hall.1.1, h2 hall.1.2⟩, hall.2⟩
    · rw [List.find?_cons_of_neg ns hn] at hf
      simp only [setFirstNamed, hn, if_false]
      simp only [dirsHaveFileForest, Bool.and_eq_true] at hall ⊢
      exact ⟨hall.1, ih hf hall.2⟩

/-- Inserting the remaining segments of a file into an empty level always
creates a chain ending in a file node: the resulting level contains a file
descendant and all its directories do. -/
theorem insertWalk_nil_hasFile (f : CodebaseFile) :
    ∀ rest consumed, rest ≠ [] →
      forestHasFile (insertWalk f consumed rest []) = true ∧
      dirsHaveFileForest (insertWalk f consumed rest []) = true := by
  intro rest
  induction rest with
  | nil => intro consumed h; exact absurd rfl h
  | cons part rest ih =>
    intro consumed _
    cases rest with
    | nil =>
      simp [insertWalk, forestHasFile, nodeHasFile, dirsHaveFileForest, dirsHaveFile]
    | cons p2 r2 =>
      obtain ⟨ha, hb⟩ := ih (consumed ++ [part]) (by simp)
      simp [insertWalk, forestHasFile, nodeHasFile, dirsHaveFileForest,
        dirsHaveFile, ha, hb]

/-- Insertion preserves "the level contains a file descendant". -/
theorem insertWalk_hasFile (f : CodebaseFile) :
    ∀ rest consumed L, forestHasFile L = true →
      forestHasFile (insertWalk f consumed rest L) = true := by
  intro rest
  induction rest with
  | nil => intro consumed L h; exact h
  | cons part rest ih =>
    intro consumed L h
    cases rest with
    | nil =>
      by_cases hany : (L.any (fun n => n.name == part)) = true
      · simpa [insertWalk, hany] using h
      · simp only [insertWalk, hany, Bool.false_eq_true, if_false]
        rw [forestHasFile_append, h]
        rfl
    | cons p2 r2 =>
      cases hfind : L.find? (fun n => n.name == part) with
      | none =>
        simp only [insertWalk, hfind]
        rw [forestHasFile_append, h]
        rfl
      | some found =>
        match found with
        | FTNode.file a b c d e =>
          simp only [insertWalk, hfind]
          exact ih (consumed ++ [part]) L h
        | FTNode.dir nm p cs =>
          simp only [insertWalk, hfind]
          exact setFirstNamed_hasFile
            (fun hcs => ih (consumed ++ [part]) cs hcs) L hfind h

/-- Insertion preserves "every directory of the level has a file
descendant". -/
theorem insertWalk_dirsOK (f : CodebaseFile) :
    ∀ rest consumed L, dirsHaveFileForest L = true →
      dirsHaveFileForest (insertWalk f consumed rest L) = true := by
  intro rest
  induction rest with
  | nil => intro consumed L h; exact h
  | cons part rest ih =>
    intro consumed L h
    cases rest with
    | nil =>
      by_cases hany : (L.any (fun n => n.name == part)) = true
      · simpa [insertWalk, hany] using h
      · simp only [insertWalk, hany, Bool.false_eq_true, if_false]
        rw [dirsHaveFileForest_append, h]
        simp [dirsHaveFileForest, dirsHaveFile]
    | cons p2 r2 =>
      cases hfind : L.find? (fun n => n.name == part) with
      | none =>
        obtain ⟨ha, hb⟩ := insertWalk_nil_hasFile f (p2 :: r2) (consumed ++ [part])
          (by simp)
        simp only [insertWalk, hfind]
        rw [dirsHaveFileForest_append, h]
        simp [dirsHaveFileForest, dirsHaveFile, ha, hb]
      | some found =>
        match found with
        | FTNode.file a b c d e =>
          simp only [insertWalk, hfind]
          exact ih (consumed ++ [part]) L h
        | FTNode.dir nm p cs =>
          simp only [insertWalk, hfind]
          exact setFirstNamed_dirsOK
            (fun hcs => insertWalk_hasFile f (p2 :: r2) (consumed ++ [part]) cs hcs)
            (fun hcs => ih (consumed ++ [part]) cs hcs) L hfind h

theorem insertAll_dirsOK (files : List CodebaseFile) :
    ∀ L, dirsHaveFileForest L = true →
      dirsHaveFileForest
        (files.foldl (fun root f => insertWalk f [] (splitSlash f.path) root) L)
        = true := by
  induction files with
  | nil => intro L h; exact h
  | cons f fs ih =>
    intro L h
    exact ih _ (insertWalk_dirsOK f (splitSlash f.path) [] L h)

/-- C9 — every directory node of the tree produced by `buildFileTree` has
at least one descendant node of kind file: directories are only
materialized as intermediate segments of some inserted path, whose walk
always terminates in a file node inside them. -/
theorem C9_directories_nonempty :
    ∀ files, dirsHaveFileForest (buildFileTree files) = true := by
  intro files
  unfold buildFileTree sortLevel jsSort
  rw [dirsHaveFileForest_eq_all,
    all_eq_of_perm dirsHaveFile (List.perm_insertionSort nodeR _),
    ← dirsHaveFileForest_eq_all, dirsHaveFileForest_sortForest]
  exact insertAll_dirsOK files [] rfl

/-! ## Claim C5: order theory of the comparator -/

theorem charToNat_inj {a b : Char} (h : a.toNat = b.toNat) : a = b :=
  Char.eq_of_val_eq (UInt32.ext h)

theorem nameLeData_total : ∀ x y : List Char,
    nameLeData x y = true ∨ nameLeData y x = true := by
  intro x
  induction x with
  | nil => intro y; left; rfl
  | cons a as ih =>
    intro y
    cases y with
    | nil => right; rfl
    | cons b bs =>
      by_cases hab : a = b
      · subst hab
        rcases ih bs with h | h
        · left; simp [nameLeData, h]
        · right; simp [nameLeData, h]
      · rcases Nat.lt_trichotomy a.toNat b.toNat with h | h | h
        · left; simp [nameLeData, hab, h]
        · exact absurd (charToNat_inj h) hab
        · right
          show (if b = a then nameLeData bs as else decide (b.toNat < a.toNat)) = true
          rw [if_neg (fun e => hab e.symm)]
          exact decide_eq_true h

theorem nameLeData_trans : ∀ x y z : List Char,
    nameLeData x y = true → nameLeData y z = true → nameLeData x z = true := by
  intro x
  induction x with
  | nil => intro y z _ _; rfl
  | cons a as ih =>
    intro y z hxy hyz
    cases y with
    | nil => simp [nameLeData] at hxy
    | cons b bs =>
      cases z with
      | nil => simp [nameLeData] at hyz
      | cons c cs =>
        by_cases hab : a = b <;> by_cases hbc : b = c
        · subst hab; subst hbc
          simp only [nameLeData, if_pos rfl] at hxy hyz ⊢
          exact ih bs cs hxy hyz
        · subst hab
          simp only [nameLeData, if_pos rfl, if_neg hbc] at hxy hyz ⊢
          exact hyz
        · subst hbc
          simp only [nameLeData, if_neg hab] at hxy ⊢
          exact hxy
        · simp only [nameLeData, if_neg hab, if_neg hbc, decide_eq_true_eq] at hxy hyz
          by_cases hac : a = c
          · subst hac
            omega
          · simp only [nameLeData, if_neg hac, decide_eq_true_eq]
            omega

theorem nameLeData_antisymm : ∀ x y : List Char,
    nameLeData x y = true → nameLeData y x = true → x = y := by
  intro x
  induction x with
  | nil =>
    intro y _ hyx
    cases y with
    | nil => rfl
    | cons b bs => simp [nameLeData] at hyx
  | cons a as ih =>
    intro y hxy hyx
    cases y with
    | nil => simp [nameLeData] at hxy
    | cons b bs =>
      by_cases hab : a = b
      · subst hab
        simp only [nameLeData, if_pos rfl] at hxy hyx
        rw [ih bs hxy hyx]
      · simp only [nameLeData, if_neg hab, if_neg (fun e => hab (Eq.symm e)),
          decide_eq_true_eq] at hxy hyx
        omega

instance : IsTotal FTNode nodeR := by
  constructor
  intro a b
  unfold nodeR nodeLE
  by_cases hd : a.isDir = b.isDir
  · rw [hd]
    simp only [bne_self_eq_false, Bool.false_eq_true, if_false]
    exact nameLeData_total a.name.data b.name.data
  · cases ha : a.isDir <;> cases hb : b.isDir <;>
      simp_all

instance : IsTrans FTNode nodeR := by
  constructor
  intro a b c hab hbc
  unfold nodeR nodeLE at *
  cases ha : a.isDir <;> cases hb : b.isDir <;> cases hc : c.isDir <;>
    simp_all
  · exact nameLeData_trans _ _ _ hab hbc
  · exact nameLeData_trans _ _ _ hab hbc

/-- With equal kinds and mutually `nodeLE`-comparable, names agree. -/
theorem nodeLE_antisymm_key {a b : FTNode} (hab : nodeLE a b = true)
    (hba : nodeLE b a = true) : a.isDir = b.isDir ∧ a.name = b.name := by
  unfold nodeLE at hab hba
  by_cases hd : a.isDir = b.isDir
  · rw [hd] at hab
    rw [hd]
    simp only [bne_self_eq_false, Bool.false_eq_true, if_false] at hab hba
    rw [← hd] at hba
    simp only [bne_self_eq_false, Bool.false_eq_true, if_false] at hba
    exact ⟨rfl, String.ext (nameLeData_antisymm _ _ hab hba)⟩
  · cases hA : a.isDir <;> cases hB : b.isDir <;> simp_all

/-! ## Claim C5: sortedness and idempotence of the sort -/

/-- Adjacent pairs of a level satisfy the comparator. -/
def pairsLeB : List FTNode → Bool
  | [] => true
  | [_] => true
  | a :: b :: rest => nodeLE a b && pairsLeB (b :: rest)

mutual

/-- Every level of `n` is sorted by the comparator. -/
def treeSortedB : FTNode → Bool
  | .file .. => true
  | .dir _ _ cs => pairsLeB cs && forestSortedB cs

/-- `treeSortedB` over a forest. -/
def forestSortedB : List FTNode → Bool
  | [] => true
  | n :: ns => treeSortedB n && forestSortedB ns

end

/-- The root level and every nested level are sorted. -/
def fullySortedB (L : List FTNode) : Bool := pairsLeB L && forestSortedB L

theorem forestSortedB_eq_all (L : List FTNode) :
    forestSortedB L = L.all treeSortedB := by
  induction L with
  | nil => rfl
  | cons n ns ih => simp [forestSortedB, ih]

theorem pairsLeB_of_sorted : ∀ {L : List FTNode}, List.Sorted nodeR L →
    pairsLeB L = true := by
  intro L
  induction L with
  | nil => intro _; rfl
  | cons a t ih =>
    intro h
    cases t with
    | nil => rfl
    | cons b rest =>
      have hab : nodeLE a b = true := (List.sorted_cons.mp h).1 b (by simp)
      have ht : List.Sorted nodeR (b :: rest) := (List.sorted_cons.mp h).2
      simp [pairsLeB, hab, ih ht]

theorem sorted_jsSort (L : List FTNode) : List.Sorted nodeR (jsSort L) :=
  List.sorted_insertionSort nodeR L

mutual

theorem treeSortedB_sortNode : ∀ n, treeSortedB (sortNode n) = true
  | .file .. => rfl
  | .dir nm p cs => by
    show (pairsLeB (jsSort (sortForest cs))
        && forestSortedB (jsSort (sortForest cs))) = true
    rw [pairsLeB_of_sorted (sorted_jsSort (sortForest cs)),
      forestSortedB_eq_all, jsSort,
      all_eq_of_perm treeSortedB (List.perm_insertionSort nodeR (sortForest cs)),
      ← forestSortedB_eq_all, forestSortedB_sortForest cs]
    rfl

theorem forestSortedB_sortForest : ∀ L, forestSortedB (sortForest L) = true
  | [] => rfl
  | n :: ns => by
    show (treeSortedB (sortNode n) && forestSortedB (sortForest ns)) = true
    rw [treeSortedB_sortNode n, forestSortedB_sortForest ns]
    rfl

end

theorem fullySortedB_sortLevel (L : List FTNode) :
    fullySortedB (sortLevel L) = true := by
  unfold fullySortedB sortLevel
  rw [pairsLeB_of_sorted (sorted_jsSort (sortForest L)),
    forestSortedB_eq_all, jsSort,
    all_eq_of_perm treeSortedB (List.perm_insertionSort nodeR (sortForest L)),
    ← forestSortedB_eq_all, forestSortedB_sortForest L]
  rfl

theorem sortNode_name (n : FTNode) : (sortNode n).name = n.name := by
  cases n <;> rfl

theorem sortNode_isDir (n : FTNode) : (sortNode n).isDir = n.isDir := by
  cases n <;> rfl

theorem nodeR_sortNode (a b : FTNode) :
    nodeR (sortNode a) (sortNode b) ↔ nodeR a b := by
  unfold nodeR nodeLE
  rw [sortNode_name, sortNode_name, sortNode_isDir, sortNode_isDir]

theorem sortForest_eq_map (L : List FTNode) : sortForest L = L.map sortNode := by
  induction L with
  | nil => rfl
  | cons n ns ih => simp [sortForest, ih]

theorem map_sortNode_orderedInsert (a : FTNode) :
    ∀ l, (List.orderedInsert nodeR a l).map sortNode =
      List.orderedInsert nodeR (sortNode a) (l.map sortNode) := by
  intro l
  induction l with
  | nil => rfl
  | cons b bs ih =>
    by_cases h : nodeR a b
    · rw [List.orderedInsert, if_pos h]
      rw [List.map_cons, List.map_cons]
      rw [List.orderedInsert, if_pos ((nodeR_sortNode a b).mpr h)]
    · rw [List.orderedInsert, if_neg h, List.map_cons, List.map_cons,
        List.orderedInsert, if_neg (fun hc => h ((nodeR_sortNode a b).mp hc)), ih]

theorem map_sortNode_insertionSort :
    ∀ l, (List.insertionSort nodeR l).map sortNode =
      List.insertionSort nodeR (l.map sortNode) := by
  intro l
  induction l with
  | nil => rfl
  | cons a l ih =>
    rw [List.insertionSort, List.map_cons, List.insertionSort,
      map_sortNode_orderedInsert, ih]

/-- Sorting the transformed level commutes with recursing into children. -/
theorem sortForest_jsSort (L : List FTNode) :
    sortForest (jsSort L) = jsSort (sortForest L) := by
  rw [sortForest_eq_map, sortForest_eq_map, jsSort, jsSort,
    map_sortNode_insertionSort]

theorem jsSort_idem (L : List FTNode) : jsSort (jsSort L) = jsSort L :=
  List.Sorted.insertionSort_eq (sorted_jsSort L)

mutual

theorem sortNode_idem : ∀ n, sortNode (sortNode n) = sortNode n
  | .file .. => rfl
  | .dir nm p cs => by
    show FTNode.dir nm p (jsSort (sortForest (jsSort (sortForest cs))))
        = FTNode.dir nm p (jsSort (sortForest cs))
    rw [sortForest_jsSort, jsSort_idem, sortForest_idem cs]

theorem sortForest_idem : ∀ L, sortForest (sortForest L) = sortForest L
  | [] => rfl
  | n :: ns => by
    show sortNode (sortNode n) :: sortForest (sortForest ns) = _
    rw [sortNode_idem n, sortForest_idem ns]
    rfl

end

/-- Re-sorting is a no-op: `sortNodes` is idempotent. -/
theorem sortLevel_idem (L : List FTNode) : sortLevel (sortLevel L) = sortLevel L := by
  unfold sortLevel
  rw [sortForest_jsSort, jsSort_idem, sortForest_idem]

/-! ## Claim C5: permutation invariance under prefix-free paths

The builder's output can depend on insertion order when one file's path
names a directory of another (`"a"` next to `"a/b"`): the walk then hits
an existing *file* node at an inner segment and stays at the same level.
For git blob listings this cannot happen — no blob path is a directory
prefix of another.  Under that hypothesis the sorted tree is a function
of the file multiset; this is proved through a membership-based
representation invariant `InvL` relating a raw level to the entries
(remaining path segments paired with their file) it represents. -/

/-- `segStarts s t`: segment list `s` is a (not necessarily proper)
leading segment of `t`. -/
def segStarts : List String → List String → Bool
  | [], _ => true
  | _ :: _, [] => false
  | a :: as, b :: bs => a == b && segStarts as bs

/-- No two files' segment lists are comparable by the prefix order
(equality included, so paths are pairwise distinct). -/
def goodFiles (files : List CodebaseFile) : Prop :=
  files.Pairwise (fun f g =>
    segStarts (splitSlash f.path) (splitSlash g.path) = false ∧
    segStarts (splitSlash g.path) (splitSlash f.path) = false)

/-- The files as insertion entries: remaining segments plus the file. -/
def entriesOf (files : List CodebaseFile) : List (List String × CodebaseFile) :=
  files.map (fun f => (splitSlash f.path, f))

/-- The entries that continue below a directory named `nm`. -/
def childEntries (nm : String)
    (entries : List (List String × CodebaseFile)) :
    List (List String × CodebaseFile) :=
  entries.filterMap (fun e =>
    match e.1 with
    | [] => none
    | h :: t => if h = nm then some (t, e.2) else none)

/-- First remaining segment of an entry. -/
def headOf (e : List String × CodebaseFile) : Option String := e.1.head?

/-- Goodness of an entry list: every entry has remaining segments, and no
two entries' segment lists are prefix-comparable. -/
def goodEntries (entries : List (List String × CodebaseFile)) : Prop :=
  (∀ e ∈ entries, e.1 ≠ []) ∧
  entries.Pairwise (fun e e' =>
    segStarts e.1 e'.1 = false ∧ segStarts e'.1 e.1 = false)

/-- The representation invariant of the insertion walk: `L` is a level
representing exactly `entries` below the consumed path prefix `consumed`.
All clauses are membership-based, so the invariant only depends on the
multiset of entries. -/
inductive InvL :
    List String → List (List String × CodebaseFile) → List FTNode → Prop where
  | mk (consumed : List String)
      (entries : List (List String × CodebaseFile)) (L : List FTNode)
      (hnodup : (L.map FTNode.name).Nodup)
      (hkeys : ∀ h : String,
        (∃ n ∈ L, FTNode.name n = h) ↔ ∃ e ∈ entries, headOf e = some h)
      (hfile : ∀ nm p s lg sup, FTNode.file nm p s lg sup ∈ L →
        sup = true ∧
        (∃ f : CodebaseFile,
          ([nm], f) ∈ entries ∧ p = f.path ∧ s = f.size ∧ lg = f.language) ∧
        (∀ e ∈ entries, headOf e = some nm → e.1 = [nm]))
      (hdirPath : ∀ nm p cs, FTNode.dir nm p cs ∈ L →
        p = joinSlash (consumed ++ [nm]))
      (hdirNoLeaf : ∀ nm p cs, FTNode.dir nm p cs ∈ L →
        ∀ e ∈ entries, e.1 ≠ [nm])
      (hdirChildren : ∀ nm p cs, FTNode.dir nm p cs ∈ L →
        InvL (consumed ++ [nm]) (childEntries nm entries) cs) :
      InvL consumed entries L

theorem InvL_nil (consumed : List String) : InvL consumed [] [] :=
  InvL.mk consumed [] []
    (by simp)
    (fun h => Iff.intro
      (fun hex => absurd hex.choose_spec.1 (List.not_mem_nil _))
      (fun hex => absurd hex.choose_spec.1 (List.not_mem_nil _)))
    (fun nm p s lg sup hmem => absurd hmem (List.not_mem_nil _))
    (fun nm p cs hmem => absurd hmem (List.not_mem_nil _))
    (fun nm p cs hmem => absurd hmem (List.not_mem_nil _))
    (fun nm p cs hmem => absurd hmem (List.not_mem_nil _))

theorem segStarts_refl (s : List String) : segStarts s s = true := by
  induction s with
  | nil => rfl
  | cons a as ih => simp [segStarts, ih]

theorem segStarts_cons_same (nm : String) (t t' : List String) :
    segStarts (nm :: t) (nm :: t') = segStarts t t' := by
  simp [segStarts]

theorem mem_childEntries {nm : String} {t : List String} {f : CodebaseFile}
    {entries : List (List String × CodebaseFile)} :
    (t, f) ∈ childEntries nm entries ↔ (nm :: t, f) ∈ entries := by
  unfold childEntries
  rw [List.mem_filterMap]
  constructor
  · rintro ⟨⟨segs, g⟩, he, hm⟩
    match segs, hm with
    | [], hm => exact absurd hm (by simp)
    | h :: t', hm =>
      simp only at hm
      by_cases hh : h = nm
      · rw [if_pos hh] at hm
        obtain ⟨rfl, rfl⟩ : t' = t ∧ g = f := by
          have := Option.some.inj hm
          exact ⟨congrArg Prod.fst this, congrArg Prod.snd this⟩
        rw [hh] at he
        exact he
      · rw [if_neg hh] at hm
        exact absurd hm (by simp)
  · intro h
    exact ⟨(nm :: t, f), h, by simp⟩

theorem childEntries_append (nm : String)
    (E E' : List (List String × CodebaseFile)) :
    childEntries nm (E ++ E') = childEntries nm E ++ childEntries nm E' :=
  List.filterMap_append E E' _

theorem childEntries_perm (nm : String)
    {E E' : List (List String × CodebaseFile)} (h : E.Perm E') :
    (childEntries nm E).Perm (childEntries nm E') :=
  List.Perm.filterMap _ h

theorem childEntries_eq_nil {nm : String}
    {E : List (List String × CodebaseFile)}
    (h : ∀ e ∈ E, headOf e ≠ some nm) : childEntries nm E = [] := by
  unfold childEntries
  rw [List.filterMap_eq_nil_iff]
  intro e he
  match hseg : e.1 with
  | [] => simp
  | h0 :: t =>
    simp only
    rw [if_neg]
    intro hc
    exact h e he (by simp [headOf, hseg, hc])

theorem childEntries_singleton_same (nm : String) (t : List String)
    (f : CodebaseFile) : childEntries nm [(nm :: t, f)] = [(t, f)] := by
  simp [childEntries]

/-- The invariant only depends on the multiset of entries. -/
theorem InvL_perm :
    ∀ {consumed : List String} {entries : List (List String × CodebaseFile)}
      {L : List FTNode}, InvL consumed entries L →
      ∀ {entries' : List (List String × CodebaseFile)},
        entries.Perm entries' → InvL consumed entries' L := by
  intro consumed entries L h
  induction h with
  | mk consumed entries L hnodup hkeys hfile hdirPath hdirNoLeaf hdirChildren ih =>
    intro entries' hp
    refine InvL.mk consumed entries' L hnodup ?_ ?_ hdirPath ?_ ?_
    · intro h0
      refine Iff.trans (hkeys h0) ?_
      exact ⟨fun ⟨e, he, hh⟩ => ⟨e, hp.mem_iff.mp he, hh⟩,
        fun ⟨e, he, hh⟩ => ⟨e, hp.mem_iff.mpr he, hh⟩⟩
    · intro nm p s lg sup hmem
      obtain ⟨h1, ⟨f, hf, hfs⟩, h3⟩ := hfile nm p s lg sup hmem
      exact ⟨h1, ⟨f, hp.mem_iff.mp hf, hfs⟩,
        fun e he hh => h3 e (hp.mem_iff.mpr he) hh⟩
    · intro nm p cs hmem e he
      exact hdirNoLeaf nm p cs hmem e (hp.mem_iff.mpr he)
    · intro nm p cs hmem
      exact ih nm p cs hmem (childEntries_perm nm hp)

theorem goodEntries_perm {E E' : List (List String × CodebaseFile)}
    (h : goodEntries E) (hp : E.Perm E') : goodEntries E' := by
  refine ⟨fun e he => h.1 e (hp.mem_iff.mpr he), ?_⟩
  exact hp.pairwise h.2 (fun hxy => ⟨hxy.2, hxy.1⟩)

theorem goodEntries_of_append_left {E E' : List (List String × CodebaseFile)}
    (h : goodEntries (E ++ E')) : goodEntries E :=
  ⟨fun e he => h.1 e (List.mem_append_left E' he),
   (List.pairwise_append.mp h.2).1⟩

/-- Under goodness, an entry is determined by its segment list. -/
theorem goodEntries_seg_inj {E : List (List String × CodebaseFile)}
    (h : goodEntries E) {e₁ e₂ : List String × CodebaseFile}
    (h₁ : e₁ ∈ E) (h₂ : e₂ ∈ E) (hseg : e₁.1 = e₂.1) : e₁ = e₂ := by
  by_contra hne
  have hsym : Symmetric (fun e e' : List String × CodebaseFile =>
      segStarts e.1 e'.1 = false ∧ segStarts e'.1 e.1 = false) :=
    fun _ _ hxy => ⟨hxy.2, hxy.1⟩
  have := (h.2.forall hsym h₁ h₂ hne).1
  rw [hseg, segStarts_refl] at this
  exact absurd this (by simp)

theorem goodEntries_child {nm : String}
    {E : List (List String × CodebaseFile)} (h : goodEntries E)
    (hno : ∀ e ∈ E, e.1 ≠ [nm]) : goodEntries (childEntries nm E) := by
  constructor
  · rintro ⟨t, f⟩ he
    have hmem : (nm :: t, f) ∈ E := mem_childEntries.mp he
    intro ht
    simp only at ht
    subst ht
    exact hno _ hmem rfl
  · unfold childEntries
    rw [List.pairwise_filterMap]
    refine h.2.imp ?_
    rintro ⟨s₁, f₁⟩ ⟨s₂, f₂⟩ hr b hb b' hb'
    match s₁, hb with
    | [], hb => exact absurd hb (by simp)
    | h₁ :: t₁, hb =>
      match s₂, hb' with
      | [], hb' => exact absurd hb' (by simp)
      | h₂ :: t₂, hb' =>
        simp only at hb hb'
        by_cases e₁ : h₁ = nm
        · by_cases e₂ : h₂ = nm
          · rw [if_pos e₁] at hb
            rw [if_pos e₂] at hb'
            obtain rfl : (t₁, f₁) = b := Option.some.inj hb
            obtain rfl : (t₂, f₂) = b' := Option.some.inj hb'
            subst e₁
            subst e₂
            simpa only [segStarts_cons_same] using hr
          · rw [if_neg e₂] at hb'
            exact absurd hb' (by simp)
        · rw [if_neg e₁] at hb
          exact absurd hb (by simp)

theorem splitSlashAux_ne_nil (acc cs : List Char) : splitSlashAux acc cs ≠ [] := by
  induction cs generalizing acc with
  | nil => simp [splitSlashAux]
  | cons c cs ih =>
    unfold splitSlashAux
    by_cases hc : (c == '/') = true
    · rw [if_pos hc]
      simp
    · rw [if_neg hc]
      exact ih (c :: acc)

theorem splitSlash_ne_nil (s : String) : splitSlash s ≠ [] := by
  unfold splitSlash
  intro h
  exact splitSlashAux_ne_nil [] s.data (List.map_eq_nil_iff.mp h)

theorem goodEntries_entriesOf {files : List CodebaseFile}
    (h : goodFiles files) : goodEntries (entriesOf files) := by
  constructor
  · rintro ⟨segs, f⟩ he
    obtain ⟨g, -, hg⟩ := List.mem_map.mp he
    have h1 : splitSlash g.path = segs := congrArg Prod.fst hg
    simp only
    rw [← h1]
    exact splitSlash_ne_nil g.path
  · unfold entriesOf
    rw [List.pairwise_map]
    exact h

theorem goodFiles_perm {l l' : List CodebaseFile} (h : goodFiles l)
    (hp : l.Perm l') : goodFiles l' :=
  hp.pairwise h (fun hxy => ⟨hxy.2, hxy.1⟩)

/-- Two sorted lists that are permutations of each other and have
pairwise-distinct names are equal. -/
theorem sorted_eq_of_perm_names :
    ∀ {l₁ l₂ : List FTNode}, l₁.Perm l₂ → List.Sorted nodeR l₁ →
      List.Sorted nodeR l₂ → (l₁.map FTNode.name).Nodup → l₁ = l₂ := by
  intro l₁
  induction l₁ with
  | nil => intro l₂ hp _ _ _; exact (hp.nil_eq).symm ▸ rfl
  | cons a t₁ ih =>
    intro l₂ hp hs₁ hs₂ hnd
    cases l₂ with
    | nil => exact absurd hp.symm.nil_eq (by simp)
    | cons b t₂ =>
      have hab : a = b := by
        by_contra hne
        have hb₁ : b ∈ a :: t₁ := hp.mem_iff.mpr (by simp)
        have ha₂ : a ∈ b :: t₂ := hp.mem_iff.mp (by simp)
        have hb : b ∈ t₁ := by
          cases List.mem_cons.mp hb₁ with
          | inl h0 => exact absurd h0.symm hne
          | inr h0 => exact h0
        have ha : a ∈ t₂ := by
          cases List.mem_cons.mp ha₂ with
          | inl h0 => exact absurd h0 hne
          | inr h0 => exact h0
        have h1 : nodeLE a b = true := (List.sorted_cons.mp hs₁).1 b hb
        have h2 : nodeLE b a = true := (List.sorted_cons.mp hs₂).1 a ha
        have hname : FTNode.name a = FTNode.name b :=
          (nodeLE_antisymm_key h1 h2).2
        have : FTNode.name b ∈ t₁.map FTNode.name :=
          List.mem_map.mpr ⟨b, hb, rfl⟩
        rw [← hname] at this
        exact (List.nodup_cons.mp hnd).1 this
      subst hab
      have ht : t₁.Perm t₂ := hp.cons_inv
      rw [ih ht (List.sorted_cons.mp hs₁).2 (List.sorted_cons.mp hs₂).2
        (List.nodup_cons.mp hnd).2]

/-- Sorting is determined by the multiset when names are distinct. -/
theorem jsSort_eq_of_perm_names {M₁ M₂ : List FTNode} (hp : M₁.Perm M₂)
    (hnd : (M₁.map FTNode.name).Nodup) : jsSort M₁ = jsSort M₂ := by
  have h1 : (jsSort M₁).Perm (jsSort M₂) :=
    ((List.perm_insertionSort nodeR M₁).trans hp).trans
      (List.perm_insertionSort nodeR M₂).symm
  have hnd' : ((jsSort M₁).map FTNode.name).Nodup := by
    have : ((jsSort M₁).map FTNode.name).Perm (M₁.map FTNode.name) :=
      (List.perm_insertionSort nodeR M₁).map FTNode.name
    exact this.nodup_iff.mpr hnd
  exact sorted_eq_of_perm_names h1 (sorted_jsSort M₁) (sorted_jsSort M₂) hnd'

/-- The invariant determines the sorted level: two levels representing
the same (good) entries sort to the same list. -/
theorem InvL_det :
    ∀ {consumed : List String} {entries : List (List String × CodebaseFile)}
      {L₁ : List FTNode}, InvL consumed entries L₁ →
      ∀ {L₂ : List FTNode}, InvL consumed entries L₂ → goodEntries entries →
        sortLevel L₁ = sortLevel L₂ := by
  intro consumed entries L₁ h₁
  induction h₁ with
  | mk consumed entries L₁ hnodup₁ hkeys₁ hfile₁ hdirPath₁ hdirNoLeaf₁
      hdirChildren₁ ih =>
    intro L₂ h₂ hg
    cases h₂ with
    | mk _ _ _ hnodup₂ hkeys₂ hfile₂ hdirPath₂ hdirNoLeaf₂ hdirChildren₂ =>
      have match_eq : ∀ n₁ ∈ L₁, ∀ n₂ ∈ L₂,
          FTNode.name n₁ = FTNode.name n₂ → sortNode n₁ = sortNode n₂ := by
        intro n₁ hn₁ n₂ hn₂ hname
        cases n₁ with
        | file nm p s lg sup =>
          obtain ⟨hsup, ⟨f, hf, hp', hs', hl'⟩, -⟩ := hfile₁ nm p s lg sup hn₁
          cases n₂ with
          | file nm₂ p₂ s₂ lg₂ sup₂ =>
            have hnm : nm₂ = nm := by simpa [FTNode.name] using hname.symm
            subst hnm
            obtain ⟨hsup₂, ⟨f₂, hf₂, hp₂, hs₂, hl₂⟩, -⟩ :=
              hfile₂ nm₂ p₂ s₂ lg₂ sup₂ hn₂
            have h08 : ([nm₂], f) = ([nm₂], f₂) :=
              goodEntries_seg_inj hg hf hf₂ rfl
            have hff : f = f₂ := congrArg Prod.snd h08
            subst hsup
            subst hsup₂
            rw [show sortNode (FTNode.file nm₂ p s lg true)
                = FTNode.file nm₂ p s lg true from rfl,
              show sortNode (FTNode.file nm₂ p₂ s₂ lg₂ true)
                = FTNode.file nm₂ p₂ s₂ lg₂ true from rfl,
              hp', hs', hl', hp₂, hs₂, hl₂, hff]
          | dir nm₂ p₂ cs₂ =>
            have hnm : nm₂ = nm := by simpa [FTNode.name] using hname.symm
            subst hnm
            exact absurd rfl (hdirNoLeaf₂ nm₂ p₂ cs₂ hn₂ ([nm₂], f) hf)
        | dir nm p cs =>
          cases n₂ with
          | file nm₂ p₂ s₂ lg₂ sup₂ =>
            have hnm : nm₂ = nm := by simpa [FTNode.name] using hname.symm
            subst hnm
            obtain ⟨-, ⟨f₂, hf₂, -⟩, -⟩ := hfile₂ nm₂ p₂ s₂ lg₂ sup₂ hn₂
            exact absurd rfl (hdirNoLeaf₁ nm₂ p cs hn₁ ([nm₂], f₂) hf₂)
          | dir nm₂ p₂ cs₂ =>
            have hnm : nm₂ = nm := by simpa [FTNode.name] using hname.symm
            subst hnm
            have hpe : p = joinSlash (consumed ++ [nm₂]) :=
              hdirPath₁ nm₂ p cs hn₁
            have hpe₂ : p₂ = joinSlash (consumed ++ [nm₂]) :=
              hdirPath₂ nm₂ p₂ cs₂ hn₂
            have hchild : sortLevel cs = sortLevel cs₂ :=
              ih nm₂ p cs hn₁ (hdirChildren₂ nm₂ p₂ cs₂ hn₂)
                (goodEntries_child hg (hdirNoLeaf₁ nm₂ p cs hn₁))
            show FTNode.dir nm₂ p (jsSort (sortForest cs))
              = FTNode.dir nm₂ p₂ (jsSort (sortForest cs₂))
            rw [hpe, hpe₂]
            exact congrArg _ hchild
      have himg : ∀ y, y ∈ L₁.map sortNode ↔ y ∈ L₂.map sortNode := by
        intro y
        constructor
        · intro hy
          obtain ⟨n₁, hn₁, rfl⟩ := List.mem_map.mp hy
          obtain ⟨n₂, hn₂, hname₂⟩ := (hkeys₂ n₁.name).mpr
            ((hkeys₁ n₁.name).mp ⟨n₁, hn₁, rfl⟩)
          exact List.mem_map.mpr
            ⟨n₂, hn₂, (match_eq n₁ hn₁ n₂ hn₂ hname₂.symm).symm⟩
        · intro hy
          obtain ⟨n₂, hn₂, rfl⟩ := List.mem_map.mp hy
          obtain ⟨n₁, hn₁, hname₁⟩ := (hkeys₁ n₂.name).mpr
            ((hkeys₂ n₂.name).mp ⟨n₂, hn₂, rfl⟩)
          exact List.mem_map.mpr ⟨n₁, hn₁, match_eq n₁ hn₁ n₂ hn₂ hname₁⟩
      have hmapname₁ : (L₁.map sortNode).map FTNode.name = L₁.map FTNode.name := by
        rw [List.map_map]
        exact List.map_congr_left (fun n _ => sortNode_name n)
      have hmapname₂ : (L₂.map sortNode).map FTNode.name = L₂.map FTNode.name := by
        rw [List.map_map]
        exact List.map_congr_left (fun n _ => sortNode_name n)
      have hndimg₁ : (L₁.map sortNode).Nodup :=
        List.Nodup.of_map FTNode.name (hmapname₁ ▸ hnodup₁)
      have hndimg₂ : (L₂.map sortNode).Nodup :=
        List.Nodup.of_map FTNode.name (hmapname₂ ▸ hnodup₂)
      have hperm : (L₁.map sortNode).Perm (L₂.map sortNode) :=
        (List.perm_ext_iff_of_nodup hndimg₁ hndimg₂).mpr himg
      show jsSort (sortForest L₁) = jsSort (sortForest L₂)
      rw [sortForest_eq_map, sortForest_eq_map]
      exact jsSort_eq_of_perm_names hperm (hmapname₁ ▸ hnodup₁)

theorem headOf_some {e : List String × CodebaseFile} {nm : String} :
    headOf e = some nm ↔ ∃ t, e.1 = nm :: t := by
  unfold headOf
  cases h : e.1 with
  | nil => simp
  | cons a t =>
    simp only [List.head?_cons, Option.some.injEq]
    constructor
    · intro ha
      exact ⟨t, by rw [ha]⟩
    · rintro ⟨t', ht'⟩
      exact (List.cons.injEq a t nm t' ▸ ht').1

theorem find?_decomp {nm : String} {L : List FTNode} {nd : FTNode}
    (h : L.find? (fun n => n.name == nm) = some nd) :
    ∃ pre post, L = pre ++ nd :: post ∧
      ∀ n ∈ pre, (FTNode.name n == nm) = false := by
  induction L with
  | nil => simp at h
  | cons n ns ih =>
    by_cases hn : (FTNode.name n == nm) = true
    · rw [List.find?_cons_of_pos ns hn] at h
      obtain rfl : n = nd := Option.some.inj h
      exact ⟨[], ns, rfl, by simp⟩
    · rw [List.find?_cons_of_neg ns hn] at h
      obtain ⟨pre, post, rfl, hpre⟩ := ih h
      refine ⟨n :: pre, post, rfl, ?_⟩
      intro m hm
      rcases List.mem_cons.mp hm with rfl | hm'
      · exact Bool.not_eq_true _ ▸ (by simpa using hn)
      · exact hpre m hm'

theorem setFirstNamed_decomp {nm : String} {new nd : FTNode}
    {pre post : List FTNode}
    (hpre : ∀ n ∈ pre, (FTNode.name n == nm) = false)
    (hnd : (FTNode.name nd == nm) = true) :
    setFirstNamed nm new (pre ++ nd :: post) = pre ++ new :: post := by
  induction pre with
  | nil => simp [setFirstNamed, hnd]
  | cons m pre ih =>
    have hm : (FTNode.name m == nm) = false := hpre m (by simp)
    simp only [List.cons_append, setFirstNamed, hm, Bool.false_eq_true, if_false]
    exact congrArg (m :: ·) (ih (fun n hn => hpre n (by simp [hn])))

theorem not_any_name {L : List FTNode} {nm : String}
    (h : (L.any fun n => FTNode.name n == nm) = false) :
    ∀ n ∈ L, FTNode.name n ≠ nm := by
  intro n hn heq
  have ht : (L.any fun n => FTNode.name n == nm) = true :=
    List.any_eq_true.mpr ⟨n, hn, by simp [heq]⟩
  rw [h] at ht
  exact absurd ht (by simp)

theorem any_name_eq_false {L : List FTNode} {nm : String}
    (h : ∀ n ∈ L, FTNode.name n ≠ nm) :
    (L.any fun n => FTNode.name n == nm) = false := by
  rw [Bool.eq_false_iff]
  intro hany
  obtain ⟨n, hn, hb⟩ := List.any_eq_true.mp hany
  exact h n hn (by simpa using hb)

theorem childEntries_append_single_ne {nm' nm : String} {rest : List String}
    {f : CodebaseFile} {E : List (List String × CodebaseFile)} (h : nm ≠ nm') :
    childEntries nm' (E ++ [(nm :: rest, f)]) = childEntries nm' E := by
  rw [childEntries_append]
  rw [show childEntries nm' [(nm :: rest, f)] = [] from childEntries_eq_nil ?_]
  · exact List.append_nil _
  · intro e he
    rw [List.mem_singleton] at he
    subst he
    simp only [headOf, List.head?_cons, Ne, Option.some.injEq]
    exact h

theorem childEntries_append_single_eq {nm : String} {rest : List String}
    {f : CodebaseFile} {E : List (List String × CodebaseFile)} :
    childEntries nm (E ++ [(nm :: rest, f)]) = childEntries nm E ++ [(rest, f)] := by
  rw [childEntries_append, childEntries_singleton_same]

theorem keys_append_iff {L : List FTNode} {new : FTNode}
    {E : List (List String × CodebaseFile)} {ne : List String × CodebaseFile}
    (hk : ∀ h, (∃ n ∈ L, FTNode.name n = h) ↔ ∃ e ∈ E, headOf e = some h)
    (hnew : headOf ne = some (FTNode.name new)) :
    ∀ h, (∃ n ∈ L ++ [new], FTNode.name n = h) ↔
      ∃ e ∈ E ++ [ne], headOf e = some h := by
  intro h
  constructor
  · rintro ⟨n, hn, hname⟩
    rcases List.mem_append.mp hn with hn' | hn'
    · obtain ⟨e, he, hh⟩ := (hk h).mp ⟨n, hn', hname⟩
      exact ⟨e, List.mem_append_left _ he, hh⟩
    · rw [List.mem_singleton] at hn'
      subst hn'
      exact ⟨ne, List.mem_append_right _ (by simp), hname ▸ hnew⟩
  · rintro ⟨e, he, hh⟩
    rcases List.mem_append.mp he with he' | he'
    · obtain ⟨n, hn, hname⟩ := (hk h).mpr ⟨e, he', hh⟩
      exact ⟨n, List.mem_append_left _ hn, hname⟩
    · rw [List.mem_singleton] at he'
      subst he'
      exact ⟨new, List.mem_append_right _ (by simp),
        Option.some.inj (hnew.symm.trans hh)⟩

theorem InvL_insert (f : CodebaseFile) :
    ∀ (segs consumed : List String)
      (entries : List (List String × CodebaseFile)) (L : List FTNode),
      InvL consumed entries L →
      goodEntries (entries ++ [(segs, f)]) →
      segs ≠ [] →
      InvL consumed (entries ++ [(segs, f)]) (insertWalk f consumed segs L) := by
  intro segs
  induction segs with
  | nil => intro _ _ _ _ _ h; exact absurd rfl h
  | cons nm rest ih =>
    intro consumed entries L hInv hg _
    obtain ⟨_, _, _, hnodup, hkeys, hfile, hdirPath, hdirNoLeaf, hdirChildren⟩ := hInv
    have hcross : ∀ e ∈ entries,
        segStarts e.1 (nm :: rest) = false ∧
        segStarts (nm :: rest) e.1 = false := by
      intro e he
      exact (List.pairwise_append.mp hg.2).2.2 e he ((nm :: rest), f) (by simp)
    cases rest with
    | nil =>
      -- last segment: the entry is a leaf; no sibling can be named nm
      have hnonode : ∀ n ∈ L, FTNode.name n ≠ nm := by
        intro n hn heq
        obtain ⟨e, he, hhead⟩ := (hkeys nm).mp ⟨n, hn, heq⟩
        obtain ⟨t, ht⟩ := headOf_some.mp hhead
        have hb := (hcross e he).2
        rw [ht] at hb
        simp [segStarts] at hb
      have hnotany : (L.any fun n => FTNode.name n == nm) = false :=
        any_name_eq_false hnonode
      rw [show insertWalk f consumed [nm] L
          = L ++ [FTNode.file nm f.path f.size f.language true] from by
        simp [insertWalk, hnotany]]
      refine InvL.mk _ _ _ ?_ ?_ ?_ ?_ ?_ ?_
      · rw [List.map_append]
        show (L.map FTNode.name ++ [nm]).Nodup
        rw [List.nodup_append]
        refine ⟨hnodup, List.nodup_singleton nm, ?_⟩
        intro a ha hb
        rw [List.mem_singleton] at hb
        subst hb
        obtain ⟨n, hn, hname⟩ := List.mem_map.mp ha
        exact hnonode n hn hname
      · exact keys_append_iff hkeys (by simp [headOf, FTNode.name])
      · intro nm' p' s' lg' sup' hmem
        rcases List.mem_append.mp hmem with hmem' | hmem'
        · obtain ⟨h1, ⟨g, hgmem, hrest⟩, hall⟩ := hfile nm' p' s' lg' sup' hmem'
          refine ⟨h1, ⟨g, List.mem_append_left _ hgmem, hrest⟩, ?_⟩
          intro e he hhead
          rcases List.mem_append.mp he with he' | he'
          · exact hall e he' hhead
          · rw [List.mem_singleton] at he'
            subst he'
            have hnmeq : nm = nm' := by simpa [headOf] using hhead
            simp [hnmeq]
        · rw [List.mem_singleton] at hmem'
          obtain ⟨rfl, rfl, rfl, rfl, rfl⟩ :
              nm' = nm ∧ p' = f.path ∧ s' = f.size ∧ lg' = f.language ∧
                sup' = true := by
            injection hmem' with a b c d e
            exact ⟨a, b, c, d, e⟩
          refine ⟨rfl, ⟨f, List.mem_append_right _ (by simp), rfl, rfl, rfl⟩, ?_⟩
          intro e he hhead
          rcases List.mem_append.mp he with he' | he'
          · obtain ⟨n, hn, hname⟩ := (hkeys nm').mpr ⟨e, he', hhead⟩
            exact absurd hname (hnonode n hn)
          · rw [List.mem_singleton] at he'
            subst he'
            rfl
      · intro nm' p' cs' hmem
        rcases List.mem_append.mp hmem with hmem' | hmem'
        · exact hdirPath nm' p' cs' hmem'
        · rw [List.mem_singleton] at hmem'
          exact FTNode.noConfusion hmem'
      · intro nm' p' cs' hmem e he
        rcases List.mem_append.mp hmem with hmem' | hmem'
        · rcases List.mem_append.mp he with he' | he'
          · exact hdirNoLeaf nm' p' cs' hmem' e he'
          · rw [List.mem_singleton] at he'
            subst he'
            intro hc
            simp only at hc
            have hne : nm = nm' := (List.cons_eq_cons.mp hc).1
            exact hnonode _ hmem' (by simp [FTNode.name, ← hne])
        · rw [List.mem_singleton] at hmem'
          exact FTNode.noConfusion hmem'
      · intro nm' p' cs' hmem
        rcases List.mem_append.mp hmem with hmem' | hmem'
        · have hne : nm ≠ nm' := fun hc =>
            hnonode _ hmem' (by simp [FTNode.name, hc])
          rw [show ([nm] : List String) = nm :: [] from rfl,
            childEntries_append_single_ne hne]
          exact hdirChildren nm' p' cs' hmem'
        · rw [List.mem_singleton] at hmem'
          exact FTNode.noConfusion hmem'
    | cons p2 r2 =>
      cases hfind : L.find? (fun n => FTNode.name n == nm) with
      | none =>
        have hnonode : ∀ n ∈ L, FTNode.name n ≠ nm := by
          intro n hn heq
          have := List.find?_eq_none.mp hfind n hn
          exact this (by simp [heq])
        have hnohead : ∀ e ∈ entries, headOf e ≠ some nm := by
          intro e he hhead
          obtain ⟨n, hn, hname⟩ := (hkeys nm).mpr ⟨e, he, hhead⟩
          exact hnonode n hn hname
        have hchild0 : childEntries nm entries = [] := childEntries_eq_nil hnohead
        have hihc : InvL (consumed ++ [nm]) ([] ++ [(p2 :: r2, f)])
            (insertWalk f (consumed ++ [nm]) (p2 :: r2) []) := by
          refine ih (consumed ++ [nm]) [] [] (InvL_nil _) ⟨?_, ?_⟩ (List.cons_ne_nil _ _)
          · intro e he
            rw [List.nil_append, List.mem_singleton] at he
            subst he
            simp
          · simp
        rw [show insertWalk f consumed (nm :: p2 :: r2) L
            = L ++ [FTNode.dir nm (dirPathOf consumed nm)
                (insertWalk f (consumed ++ [nm]) (p2 :: r2) [])] from by
          rw [insertWalk, hfind]
          exact fun h => List.noConfusion h]
        refine InvL.mk _ _ _ ?_ ?_ ?_ ?_ ?_ ?_
        · rw [List.map_append]
          show (L.map FTNode.name ++ [nm]).Nodup
          rw [List.nodup_append]
          refine ⟨hnodup, List.nodup_singleton nm, ?_⟩
          intro a ha hb
          rw [List.mem_singleton] at hb
          subst hb
          obtain ⟨n, hn, hname⟩ := List.mem_map.mp ha
          exact hnonode n hn hname
        · exact keys_append_iff hkeys (by simp [headOf, FTNode.name])
        · intro nm' p' s' lg' sup' hmem
          rcases List.mem_append.mp hmem with hmem' | hmem'
          · obtain ⟨h1, ⟨g, hgmem, hrest⟩, hall⟩ := hfile nm' p' s' lg' sup' hmem'
            refine ⟨h1, ⟨g, List.mem_append_left _ hgmem, hrest⟩, ?_⟩
            intro e he hhead
            rcases List.mem_append.mp he with he' | he'
            · exact hall e he' hhead
            · rw [List.mem_singleton] at he'
              subst he'
              have hnmeq : nm = nm' := by simpa [headOf] using hhead
              exact absurd (by simp [FTNode.name] : FTNode.name
                  (FTNode.file nm' p' s' lg' sup') = nm')
                (fun hc => hnonode _ hmem' (hnmeq ▸ hc))
          · rw [List.mem_singleton] at hmem'
            exact FTNode.noConfusion hmem'
        · intro nm' p' cs' hmem
          rcases List.mem_append.mp hmem with hmem' | hmem'
          · exact hdirPath nm' p' cs' hmem'
          · rw [List.mem_singleton] at hmem'
            obtain ⟨rfl, rfl, -⟩ :
                nm' = nm ∧ p' = dirPathOf consumed nm ∧
                  cs' = insertWalk f (consumed ++ [nm]) (p2 :: r2) [] := by
              injection hmem' with a b c
              exact ⟨a, b, c⟩
            rfl
        · intro nm' p' cs' hmem e he
          rcases List.mem_append.mp hmem with hmem' | hmem'
          · rcases List.mem_append.mp he with he' | he'
            · exact hdirNoLeaf nm' p' cs' hmem' e he'
            · rw [List.mem_singleton] at he'
              subst he'
              simp
          · rw [List.mem_singleton] at hmem'
            obtain ⟨rfl, -, -⟩ :
                nm' = nm ∧ p' = dirPathOf consumed nm ∧
                  cs' = insertWalk f (consumed ++ [nm]) (p2 :: r2) [] := by
              injection hmem' with a b c
              exact ⟨a, b, c⟩
            rcases List.mem_append.mp he with he' | he'
            · intro hc
              exact hnohead e he' (by rw [headOf, hc]; rfl)
            · rw [List.mem_singleton] at he'
              subst he'
              simp
        · intro nm' p' cs' hmem
          rcases List.mem_append.mp hmem with hmem' | hmem'
          · have hne : nm ≠ nm' := fun hc =>
              hnonode _ hmem' (by simp [FTNode.name, hc])
            rw [childEntries_append_single_ne hne]
            exact hdirChildren nm' p' cs' hmem'
          · rw [List.mem_singleton] at hmem'
            obtain ⟨rfl, rfl, rfl⟩ :
                nm' = nm ∧ p' = dirPathOf consumed nm ∧
                  cs' = insertWalk f (consumed ++ [nm]) (p2 :: r2) [] := by
              injection hmem' with a b c
              exact ⟨a, b, c⟩
            rw [childEntries_append_single_eq, hchild0]
            exact hihc
      | some found =>
        cases found with
        | file fn fp fs fl fsup =>
          -- impossible: a leaf entry [nm] would have to exist in `entries`
          exfalso
          have hmem := List.mem_of_find?_eq_some hfind
          have hprop : FTNode.name (FTNode.file fn fp fs fl fsup) = nm := by
            simpa using List.find?_some hfind
          obtain ⟨-, ⟨g, hgmem, -⟩, -⟩ := hfile fn fp fs fl fsup hmem
          have hb := (hcross ([fn], g) hgmem).1
          rw [show fn = nm from hprop] at hb
          simp [segStarts] at hb
        | dir nm0 p0 cs0 =>
          have hname0 : nm0 = nm := by
            simpa [FTNode.name] using List.find?_some hfind
          subst hname0
          obtain ⟨pre, post, hLeq, hpre⟩ := find?_decomp hfind
          subst hLeq
          have hmem0 : FTNode.dir nm0 p0 cs0
              ∈ pre ++ FTNode.dir nm0 p0 cs0 :: post := by simp
          have hno : ∀ e ∈ entries ++ [(nm0 :: p2 :: r2, f)], e.1 ≠ [nm0] := by
            intro e he
            rcases List.mem_append.mp he with he' | he'
            · exact hdirNoLeaf nm0 p0 cs0 hmem0 e he'
            · rw [List.mem_singleton] at he'
              subst he'
              simp
          have hchildGood :
              goodEntries (childEntries nm0 entries ++ [(p2 :: r2, f)]) := by
            rw [← childEntries_append_single_eq]
            exact goodEntries_child hg hno
          have hchildInv : InvL (consumed ++ [nm0])
              (childEntries nm0 entries ++ [(p2 :: r2, f)])
              (insertWalk f (consumed ++ [nm0]) (p2 :: r2) cs0) :=
            ih (consumed ++ [nm0]) (childEntries nm0 entries) cs0
              (hdirChildren nm0 p0 cs0 hmem0) hchildGood (List.cons_ne_nil _ _)
          have hiw : insertWalk f consumed (nm0 :: p2 :: r2)
                (pre ++ FTNode.dir nm0 p0 cs0 :: post)
              = setFirstNamed nm0
                  (FTNode.dir nm0 p0
                    (insertWalk f (consumed ++ [nm0]) (p2 :: r2) cs0))
                  (pre ++ FTNode.dir nm0 p0 cs0 :: post) := by
            rw [insertWalk, hfind]
            exact fun h => List.noConfusion h
          rw [hiw, setFirstNamed_decomp hpre (by simp [FTNode.name])]
          refine InvL.mk _ _ _ ?_ ?_ ?_ ?_ ?_ ?_
          · have hnames : (pre ++ FTNode.dir nm0 p0
                  (insertWalk f (consumed ++ [nm0]) (p2 :: r2) cs0)
                  :: post).map FTNode.name
                = (pre ++ FTNode.dir nm0 p0 cs0 :: post).map FTNode.name := by
              simp [FTNode.name]
            rw [hnames]
            exact hnodup
          · intro h
            have hnames : (pre ++ FTNode.dir nm0 p0
                  (insertWalk f (consumed ++ [nm0]) (p2 :: r2) cs0)
                  :: post).map FTNode.name
                = (pre ++ FTNode.dir nm0 p0 cs0 :: post).map FTNode.name := by
              simp [FTNode.name]
            rw [← List.mem_map, hnames, List.mem_map]
            constructor
            · intro hx
              obtain ⟨e, he, hh⟩ := (hkeys h).mp hx
              exact ⟨e, List.mem_append_left _ he, hh⟩
            · rintro ⟨e, he, hh⟩
              rcases List.mem_append.mp he with he' | he'
              · exact (hkeys h).mpr ⟨e, he', hh⟩
              · rw [List.mem_singleton] at he'
                subst he'
                have hh' : nm0 = h := by simpa [headOf] using hh
                subst hh'
                exact ⟨FTNode.dir nm0 p0 cs0, hmem0, rfl⟩
          · intro nm1 p1 s1 lg1 sup1 hmem
            have hmemold : FTNode.file nm1 p1 s1 lg1 sup1
                ∈ pre ++ FTNode.dir nm0 p0 cs0 :: post := by
              rcases List.mem_append.mp hmem with h' | h'
              · exact List.mem_append_left _ h'
              · rcases List.mem_cons.mp h' with h'' | h''
                · exact FTNode.noConfusion h''
                · exact List.mem_append_right _ (List.mem_cons_of_mem _ h'')
            obtain ⟨h1, ⟨g, hgmem, hrest⟩, hall⟩ := hfile nm1 p1 s1 lg1 sup1 hmemold
            refine ⟨h1, ⟨g, List.mem_append_left _ hgmem, hrest⟩, ?_⟩
            intro e he hh
            rcases List.mem_append.mp he with he' | he'
            · exact hall e he' hh
            · rw [List.mem_singleton] at he'
              subst he'
              have hnm1 : nm0 = nm1 := by simpa [headOf] using hh
              subst hnm1
              exfalso
              rw [List.map_append, List.map_cons] at hnodup
              rcases List.mem_append.mp hmemold with hp | hp
              · have hx : nm0 ∈ pre.map FTNode.name :=
                  List.mem_map.mpr ⟨_, hp, rfl⟩
                exact (List.nodup_append.mp hnodup).2.2 hx (by simp [FTNode.name])
              · rcases List.mem_cons.mp hp with hq | hq
                · exact FTNode.noConfusion hq
                · have hx : nm0 ∈ post.map FTNode.name :=
                    List.mem_map.mpr ⟨_, hq, rfl⟩
                  exact (List.nodup_cons.mp
                      (List.nodup_append.mp hnodup).2.1).1
                    (by simpa [FTNode.name] using hx)
          · intro nm1 p1 cs1 hmem
            rcases List.mem_append.mp hmem with h' | h'
            · exact hdirPath nm1 p1 cs1 (List.mem_append_left _ h')
            · rcases List.mem_cons.mp h' with h'' | h''
              · have ha : nm1 = nm0 := by injection h''
                have hb : p1 = p0 := by injection h''
                rw [ha, hb]
                exact hdirPath nm0 p0 cs0 hmem0
              · exact hdirPath nm1 p1 cs1
                  (List.mem_append_right _ (List.mem_cons_of_mem _ h''))
          · intro nm1 p1 cs1 hmem e he
            have hold : ∃ p2' cs2', FTNode.dir nm1 p2' cs2'
                ∈ pre ++ FTNode.dir nm0 p0 cs0 :: post := by
              rcases List.mem_append.mp hmem with h' | h'
              · exact ⟨p1, cs1, List.mem_append_left _ h'⟩
              · rcases List.mem_cons.mp h' with h'' | h''
                · have ha : nm1 = nm0 := by injection h''
                  subst ha
                  exact ⟨p0, cs0, hmem0⟩
                · exact ⟨p1, cs1,
                    List.mem_append_right _ (List.mem_cons_of_mem _ h'')⟩
            obtain ⟨p2', cs2', hmem'⟩ := hold
            rcases List.mem_append.mp he with he' | he'
            · exact hdirNoLeaf nm1 p2' cs2' hmem' e he'
            · rw [List.mem_singleton] at he'
              subst he'
              simp
          · intro nm1 p1 cs1 hmem
            rcases List.mem_append.mp hmem with h' | h'
            · have hne : nm0 ≠ nm1 := by
                intro hc
                subst hc
                have hx : nm0 ∈ pre.map FTNode.name :=
                  List.mem_map.mpr ⟨_, h', rfl⟩
                rw [List.map_append, List.map_cons] at hnodup
                exact (List.nodup_append.mp hnodup).2.2 hx (by simp [FTNode.name])
              rw [childEntries_append_single_ne hne]
              exact hdirChildren nm1 p1 cs1 (List.mem_append_left _ h')
            · rcases List.mem_cons.mp h' with h'' | h''
              · obtain ⟨rfl, -, rfl⟩ : nm1 = nm0 ∧ p1 = p0 ∧
                    cs1 = insertWalk f (consumed ++ [nm0]) (p2 :: r2) cs0 := by
                  injection h'' with a b c
                  exact ⟨a, b, c⟩
                rw [childEntries_append_single_eq]
                exact hchildInv
              · have hne : nm0 ≠ nm1 := by
                  intro hc
                  subst hc
                  have hx : nm0 ∈ post.map FTNode.name :=
                    List.mem_map.mpr ⟨_, h'', rfl⟩
                  rw [List.map_append, List.map_cons] at hnodup
                  exact (List.nodup_cons.mp
                      (List.nodup_append.mp hnodup).2.1).1
                    (by simpa [FTNode.name] using hx)
                rw [childEntries_append_single_ne hne]
                exact hdirChildren nm1 p1 cs1
                  (List.mem_append_right _ (List.mem_cons_of_mem _ h''))

/-- Inserting every file of a prefix-free list in order establishes the
representation invariant at the root. -/
theorem InvL_insertAll :
    ∀ {files : List CodebaseFile}, goodFiles files →
      InvL [] (entriesOf files)
        (files.foldl (fun root f => insertWalk f [] (splitSlash f.path) root) []) := by
  intro files
  induction files using List.reverseRecOn with
  | nil => intro _; exact InvL_nil []
  | append_singleton fs f ih =>
    intro h
    have hfs : goodFiles fs := (List.pairwise_append.mp h).1
    have hfold : (fs ++ [f]).foldl
          (fun root g => insertWalk g [] (splitSlash g.path) root) []
        = insertWalk f [] (splitSlash f.path)
            (fs.foldl (fun root g => insertWalk g [] (splitSlash g.path) root) []) := by
      rw [List.foldl_append]
      rfl
    have hent : entriesOf (fs ++ [f])
        = entriesOf fs ++ [(splitSlash f.path, f)] := by
      unfold entriesOf
      rw [List.map_append]
      rfl
    rw [hfold, hent]
    exact InvL_insert f (splitSlash f.path) [] (entriesOf fs) _ (ih hfs)
      (hent ▸ goodEntries_entriesOf h) (splitSlash_ne_nil f.path)

/-- On prefix-free inputs `buildFileTree` only depends on the set of
files, not on their order. -/
theorem buildFileTree_perm_invariant {l₁ l₂ : List CodebaseFile}
    (h : goodFiles l₁) (hp : l₁.Perm l₂) :
    buildFileTree l₁ = buildFileTree l₂ := by
  have h₂ : goodFiles l₂ := goodFiles_perm h hp
  have hI₁ := InvL_insertAll h
  have hI₂ := InvL_insertAll h₂
  have hpe : (entriesOf l₂).Perm (entriesOf l₁) := by
    unfold entriesOf
    exact (hp.map _).symm
  have hI₂' : InvL [] (entriesOf l₁)
      (l₂.foldl (fun root f => insertWalk f [] (splitSlash f.path) root) []) :=
    InvL_perm hI₂ hpe
  unfold buildFileTree
  exact InvL_det hI₁ hI₂' (goodEntries_entriesOf h)

/-- A file whose path is a proper prefix of another file's path. -/
def c5fileA : CodebaseFile :=
  { path := "a", content := "x", size := 1, language := none }

/-- The file below the path of `c5fileA`. -/
def c5fileAB : CodebaseFile :=
  { path := "a/b", content := "y", size := 2, language := none }

/-- A file prefix-incomparable with `c5fileAB`. -/
def c5fileC : CodebaseFile :=
  { path := "c", content := "z", size := 3, language := none }

/-- C5 counterexample: `buildFileTree` is not invariant under permutation
of its input, even with distinct paths.  When one path ("a") is a proper
prefix of another ("a/b"), inserting "a" first creates a file node named
"a" that blocks the later directory walk, while the reverse order creates
a directory "a" that makes the later file insertion of "a" a silent no-op;
the two orders give root levels of different lengths and different trees. -/
theorem C5_tree_builder_counterexample :
    [c5fileA, c5fileAB].Perm [c5fileAB, c5fileA] ∧
    ([c5fileA, c5fileAB].map CodebaseFile.path).Nodup ∧
    (buildFileTree [c5fileA, c5fileAB]).length = 2 ∧
    (buildFileTree [c5fileAB, c5fileA]).length = 1 ∧
    buildFileTree [c5fileA, c5fileAB] ≠ buildFileTree [c5fileAB, c5fileA] :=
  ⟨List.Perm.swap _ _ _, by decide, by decide, by decide,
    fun hc => absurd (congrArg List.length hc) (by decide)⟩

/-- C5 (amended): the built tree is recursively sorted (directories before
files, then by name), sorting a level twice equals sorting it once, and on
inputs whose paths are pairwise prefix-incomparable (in particular
pairwise distinct) `buildFileTree` is invariant under permutation of the
file list. -/
theorem C5_tree_builder_amended :
    (∀ files : List CodebaseFile, fullySortedB (buildFileTree files) = true) ∧
    (∀ L : List FTNode, sortLevel (sortLevel L) = sortLevel L) ∧
    (∀ l₁ l₂ : List CodebaseFile, goodFiles l₁ → l₁.Perm l₂ →
      buildFileTree l₁ = buildFileTree l₂) :=
  ⟨fun _ => fullySortedB_sortLevel _, sortLevel_idem,
    fun _ _ h hp => buildFileTree_perm_invariant h hp⟩

/-- Witness for C5: the permutation-invariance clause applied to the
prefix-free pair \x7b "a/b", "c" \x7d in both orders. -/
theorem C5_tree_builder_amended_witness :
    goodFiles [c5fileAB, c5fileC] ∧
    buildFileTree [c5fileAB, c5fileC] = buildFileTree [c5fileC, c5fileAB] :=
  ⟨by unfold goodFiles; decide,
    C5_tree_builder_amended.2.2 [c5fileAB, c5fileC] [c5fileC, c5fileAB]
      (by unfold goodFiles; decide) (List.Perm.swap _ _ _)⟩
